import Mathlib

set_option maxRecDepth 100000

/-!
# Verification of the VectorSpaceModel repository

Shallow embedding of the core data structures and operations of the
`VectorSpaceModel` Rust crate (sparse vectors, the document-vector codec,
the inverted index, the vector store, the index builder and the term
indexer), together with proofs settling the frozen claims C1..C10.

Machine floats (`f32`) are modelled by an executable IEEE-754 binary32
model `F32`: every finite float is `(sign, mant, gexp)` with value
`± mant * 2^gexp`, canonically `2^23 ≤ mant < 2^24` for normal numbers and
`gexp = -149` for subnormals and zero.  Arithmetic rounds the exact result
to nearest, ties to even, as IEEE-754 prescribes.  All definitions are
fuelled/structural so they evaluate inside the kernel.
-/

/-- Bit length of a natural number, fuelled so it reduces in the kernel.
`blenAux fuel n` computes `⌊log2 n⌋ + 1` (0 for 0) as long as `fuel ≥ n`. -/
def blenAux : Nat → Nat → Nat
  | 0, _ => 0
  | f + 1, n => if n = 0 then 0 else blenAux f (n / 2) + 1

/-- Bit length: `blen 0 = 0`, otherwise `⌊log2 n⌋ + 1`. -/
def blen (n : Nat) : Nat := blenAux n n

/-- Integer square root (floor), fuelled so it reduces in the kernel. -/
def isqrtAux : Nat → Nat → Nat
  | 0, _ => 0
  | f + 1, n =>
    if n < 2 then n
    else
      let r := 2 * isqrtAux f (n / 4)
      if (r + 1) * (r + 1) ≤ n then r + 1 else r

/-- Integer square root (floor). -/
def isqrt (n : Nat) : Nat := isqrtAux n n

/-- Round `m / 2^s` to the nearest integer, ties to even. -/
def rhe (m s : Nat) : Nat :=
  if s = 0 then m
  else
    let q := m / 2 ^ s
    let r := m % 2 ^ s
    let half := 2 ^ (s - 1)
    if r > half then q + 1
    else if r < half then q
    else if q % 2 = 1 then q + 1 else q

/-- Round `a / b` (b > 0) to the nearest integer, ties to even. -/
def rdivNE (a b : Nat) : Nat :=
  let q := a / b
  let r := a % b
  if 2 * r > b then q + 1
  else if 2 * r < b then q
  else if q % 2 = 1 then q + 1 else q

/-- IEEE-754 binary32 values.  A finite value `fin s m g` denotes
`(-1)^s * m * 2^g`; canonical forms have `2^23 ≤ m < 2^24` (normal,
`-149 < g ≤ 104`) or `g = -149, m < 2^24` (subnormal / zero). -/
inductive F32 where
  | nan : F32
  | inf (sign : Bool) : F32
  | fin (sign : Bool) (mant : Nat) (gexp : Int) : F32
deriving DecidableEq

/-- Positive zero. -/
def F32.zero : F32 := .fin false 0 (-149)

/-- Round the exact value `(-1)^sign * m * 2^e` to the nearest binary32,
ties to even, overflowing to infinity. -/
def roundF32 (sign : Bool) (m : Nat) (e : Int) : F32 :=
  if m = 0 then .fin sign 0 (-149)
  else
    let g : Int := max (-149) ((blen m : Int) + e - 24)
    let n : Nat := if e ≥ g then m * 2 ^ (e - g).toNat else rhe m ((g - e).toNat)
    let p : Nat × Int := if n = 2 ^ 24 then (2 ^ 23, g + 1) else (n, g)
    if p.2 > 104 then .inf sign
    else if p.1 = 0 then .fin sign 0 (-149)
    else .fin sign p.1 p.2

/-- binary32 multiplication. -/
def fmul : F32 → F32 → F32
  | .nan, _ => .nan
  | _, .nan => .nan
  | .inf s, .inf t => .inf (Bool.xor s t)
  | .inf s, .fin t m _ => if m = 0 then .nan else .inf (Bool.xor s t)
  | .fin t m _, .inf s => if m = 0 then .nan else .inf (Bool.xor t s)
  | .fin s1 m1 g1, .fin s2 m2 g2 => roundF32 (Bool.xor s1 s2) (m1 * m2) (g1 + g2)

/-- binary32 addition (exact sum, then one rounding). -/
def fadd : F32 → F32 → F32
  | .nan, _ => .nan
  | _, .nan => .nan
  | .inf s, .inf t => if s = t then .inf s else .nan
  | .inf s, .fin _ _ _ => .inf s
  | .fin _ _ _, .inf s => .inf s
  | .fin s1 m1 g1, .fin s2 m2 g2 =>
    let g := min g1 g2
    let a : Int := (if s1 then -(m1 : Int) else (m1 : Int)) * 2 ^ (g1 - g).toNat
    let b : Int := (if s2 then -(m2 : Int) else (m2 : Int)) * 2 ^ (g2 - g).toNat
    let sum := a + b
    if sum = 0 then .fin (s1 && s2) 0 (-149)
    else roundF32 (decide (sum < 0)) sum.natAbs g

/-- Candidate mantissa for a quotient `(m1 / m2) * 2^gd` at grid exponent `g`
(exact rational rounding, ties to even). -/
def divAt (m1 m2 : Nat) (gd g : Int) : Nat :=
  rdivNE (m1 * 2 ^ (gd - g).toNat) (m2 * 2 ^ (g - gd).toNat)

/-- Choose the grid exponent: starting from a deliberate underestimate `g0`,
bump until the mantissa fits below `2^24`.  Three bumps always suffice. -/
def pickMant (cand : Int → Nat) (g0 : Int) : Nat × Int :=
  let n0 := cand g0
  if n0 < 2 ^ 24 then (n0, g0)
  else
    let n1 := cand (g0 + 1)
    if n1 < 2 ^ 24 then (n1, g0 + 1)
    else
      let n2 := cand (g0 + 2)
      if n2 < 2 ^ 24 then (n2, g0 + 2)
      else (cand (g0 + 3), g0 + 3)

/-- Package a rounded (mantissa, grid exponent) pair, handling the carry to
`2^24` and overflow to infinity. -/
def packF32 (sign : Bool) (p : Nat × Int) : F32 :=
  let q : Nat × Int := if p.1 = 2 ^ 24 then (2 ^ 23, p.2 + 1) else p
  if q.2 > 104 then .inf sign
  else if q.1 = 0 then .fin sign 0 (-149)
  else .fin sign q.1 q.2

/-- binary32 division. -/
def fdiv : F32 → F32 → F32
  | .nan, _ => .nan
  | _, .nan => .nan
  | .inf _, .inf _ => .nan
  | .inf s, .fin t _ _ => .inf (Bool.xor s t)
  | .fin s _ _, .inf t => .fin (Bool.xor s t) 0 (-149)
  | .fin s1 m1 g1, .fin s2 m2 g2 =>
    if m2 = 0 then (if m1 = 0 then .nan else .inf (Bool.xor s1 s2))
    else if m1 = 0 then .fin (Bool.xor s1 s2) 0 (-149)
    else
      let g0 : Int := max (-149) ((blen m1 : Int) - blen m2 + (g1 - g2) - 25)
      packF32 (Bool.xor s1 s2) (pickMant (divAt m1 m2 (g1 - g2)) g0)

/-- Round-to-nearest integer square root (never a tie: `(t + 1/2)^2` is not
an integer). -/
def isqrtRN (a : Nat) : Nat :=
  let t := isqrt a
  if a > t * t + t then t + 1 else t

/-- Candidate mantissa for `sqrt (m * 2^g)` at grid exponent `gp`. -/
def sqrtAt (m : Nat) (g gp : Int) : Nat :=
  isqrtRN (m * 2 ^ (g - 2 * gp).toNat)

/-- binary32 square root. -/
def fsqrt : F32 → F32
  | .nan => .nan
  | .inf s => if s then .nan else .inf false
  | .fin s m g =>
    if m = 0 then .fin s 0 (-149)
    else if s then .nan
    else
      let g0 : Int := max (-149) (((blen m : Int) + g) / 2 - 25)
      packF32 false (pickMant (sqrtAt m g) g0)

/-- The binary32 with value `n` (rounded if `n` needs more than 24 bits). -/
def F32.ofNat (n : Nat) : F32 := roundF32 false n 0

example : fmul (F32.ofNat 3) (F32.ofNat 3) = F32.ofNat 9 := by decide
example : fadd (F32.ofNat 9) (F32.ofNat 16) = F32.ofNat 25 := by decide
example : fsqrt (F32.ofNat 25) = F32.ofNat 5 := by decide
example : fdiv (F32.ofNat 1) F32.zero = F32.inf false := by decide
example : fdiv F32.zero F32.zero = F32.nan := by decide
example : fadd F32.zero (F32.ofNat 7) = F32.ofNat 7 := by decide
example : fdiv (F32.ofNat 6) (F32.ofNat 3) = F32.ofNat 2 := by decide
example : fmul F32.zero F32.zero = F32.zero := by decide

/-!
## Sorting and deduplication primitives

`sort_by(|a, b| a.0.cmp(&b.0))` in Rust is a stable sort by dimension; it is
modelled by a stable insertion sort.  `dedup_by(|a, b| a.0 == b.0)` removes
consecutive pairs with equal dimension, keeping the first of each run.
`sort_unstable` on `Vec<u32>` is modelled by the same insertion sort
(instability is unobservable on plain numbers).
-/

/-- Insert a pair into a dim-sorted list, after all strictly smaller dims
(stable: an inserted element goes before existing equal dims only if it was
earlier in the original list, which the fold below guarantees). -/
def insPair : (Nat × F32) → List (Nat × F32) → List (Nat × F32)
  | x, [] => [x]
  | x, y :: ys => if y.1 < x.1 then y :: insPair x ys else x :: y :: ys

/-- Stable sort by dimension (models Rust `sort_by(|a,b| a.0.cmp(&b.0))`). -/
def sortPairs : List (Nat × F32) → List (Nat × F32)
  | [] => []
  | x :: xs => insPair x (sortPairs xs)

/-- Helper for `dedupPairs`: `prev` is the last retained element; drop the
next element when its dimension equals `prev`'s (Rust's `same_bucket`
receives the candidate and the last retained element). -/
def dedupPairsAux : (Nat × F32) → List (Nat × F32) → List (Nat × F32)
  | _, [] => []
  | prev, y :: ys => if y.1 = prev.1 then dedupPairsAux prev ys else y :: dedupPairsAux y ys

/-- Models Rust `Vec::dedup_by(|a, b| a.0 == b.0)`: collapse consecutive
runs of equal dimension, keeping the first element of each run. -/
def dedupPairs : List (Nat × F32) → List (Nat × F32)
  | [] => []
  | x :: xs => x :: dedupPairsAux x xs

/-- Insertion into a sorted list of naturals. -/
def insNat : Nat → List Nat → List Nat
  | x, [] => [x]
  | x, y :: ys => if y < x then y :: insNat x ys else x :: y :: ys

/-- Sort a list of naturals ascending (models `Vec::<u32>::sort_unstable`). -/
def sortNat : List Nat → List Nat
  | [] => []
  | x :: xs => insNat x (sortNat xs)

/-- Helper for `dedupNat`: `prev` is the last retained value. -/
def dedupNatAux : Nat → List Nat → List Nat
  | _, [] => []
  | prev, y :: ys => if y = prev then dedupNatAux prev ys else y :: dedupNatAux y ys

/-- Models Rust `Vec::dedup` on `u32`s: collapse consecutive equal runs. -/
def dedupNat : List Nat → List Nat
  | [] => []
  | x :: xs => x :: dedupNatAux x xs

/-!
## `src/vector.rs`: the sparse `Vector`

`inner` is the list of `(dim, weight)` pairs, `length` the cached norm.
-/

/-- The sparse vector of `src/vector.rs`: dimension/weight pairs plus a
cached length. -/
structure Vec32 where
  inner : List (Nat × F32)
  length : F32
deriving DecidableEq

/-- `LockStepIter` (from the repository's lock-step merge, the copy embedded
in `src/document_vector.rs` lines 410-462): advance the stream with the
smaller head until equality or exhaustion, yielding every shared dimension
with both values.  Fuelled with the summed lengths so it reduces in the
kernel; the fuel never runs out (each step consumes an element). -/
def lockStepF : Nat → List (Nat × F32) → List (Nat × F32) → List (Nat × F32 × F32)
  | 0, _, _ => []
  | _, [], _ => []
  | _, _ :: _, [] => []
  | f + 1, (da, va) :: as_, (db, vb) :: bs =>
    if da < db then lockStepF f as_ ((db, vb) :: bs)
    else if db < da then lockStepF f ((da, va) :: as_) bs
    else (da, va, vb) :: lockStepF f as_ bs

/-- All items yielded by `LockStepIter::new(a, b)`. -/
def lockStep (a b : List (Nat × F32)) : List (Nat × F32 × F32) :=
  lockStepF (a.length + b.length) a b

namespace Vec32

/-- `Vector::new_empty`. -/
def newEmpty : Vec32 := ⟨[], F32.zero⟩

/-- `Vector::calc_len`: `sqrt` of the left-to-right `f32` sum of squared
weights (`iter().map(|(_, i)| i.powi(2)).sum::<f32>().sqrt()`). -/
def calcLen (v : Vec32) : F32 :=
  fsqrt (v.inner.foldl (fun acc p => fadd acc (fmul p.2 p.2)) F32.zero)

/-- `Vector::sort`: sort by dimension, then dedup consecutive equal dims. -/
def sortInner (v : Vec32) : Vec32 :=
  { v with inner := dedupPairs (sortPairs v.inner) }

/-- `Vector::update`: recompute the length (over the *current*, pre-dedup
pair list), then sort and dedup. -/
def update (v : Vec32) : Vec32 :=
  sortInner { v with length := v.calcLen }

/-- `Vector::create_new_raw`: sort the raw pairs by dimension, then `update`. -/
def createNewRaw (sparse : List (Nat × F32)) : Vec32 :=
  update { inner := sortPairs sparse, length := F32.zero }

/-- `Vector::new_raw`: trust the caller's pairs and length. -/
def newRaw (sparse : List (Nat × F32)) (length : F32) : Vec32 :=
  ⟨sparse, length⟩

/-- `Vector::is_empty`. -/
def isEmpty (v : Vec32) : Bool := v.inner.isEmpty

/-- `Vector::scalar`: fold the lock-step products left to right in `f32`
(Rust `Sum<f32>` starts from `0.0`). -/
def scalar (a b : Vec32) : F32 :=
  (lockStep a.inner b.inner).foldl (fun acc t => fadd acc (fmul t.2.1 t.2.2)) F32.zero

/-- `Vector::similarity`: `self.scalar(other) / (self.length * other.length)`,
with no zero-length special case. -/
def similarity (a b : Vec32) : F32 :=
  fdiv (a.scalar b) (fmul a.length b.length)

/-- `Vector::first_indice` (guarded by the `is_empty` checks at call sites;
the default is never observed there). -/
def firstIndice (v : Vec32) : Nat := (v.inner.head?.map Prod.fst).getD 0

/-- `Vector::last_indice` (same guard). -/
def lastIndice (v : Vec32) : Nat := (v.inner.getLast?.map Prod.fst).getD 0

/-- `Vector::could_overlap`. -/
def couldOverlap (a b : Vec32) : Bool :=
  !(a.isEmpty || b.isEmpty || a.firstIndice > b.lastIndice || a.lastIndice < b.firstIndice)

/-- `Vector::overlaps_with`: fast rejection, then "does the lock-step merge
yield anything?". -/
def overlapsWith (a b : Vec32) : Bool :=
  if !(a.couldOverlap b) then false
  else !(lockStep a.inner b.inner).isEmpty

/-- `Vector::delete_dim`: `retain(|(curr_dim, _)| *curr_dim != dim)`. -/
def deleteDim (v : Vec32) (dim : Nat) : Vec32 :=
  { v with inner := v.inner.filter (fun p => p.1 ≠ dim) }

end Vec32

/-- The `overlaps_with` copy of `src/document_vector.rs` (lines 221-231).
Unlike the `vector.rs` twin it performs *no* emptiness guard: it evaluates
`self.first_indice() > other.last_indice()` first (Rust `||`
short-circuits), and `first_indice`/`last_indice` are
`self.inner.first().unwrap().0` / `.last().unwrap().0`, which panic on an
empty vector — modelled as `none`.  Only when that first comparison is
false are `self.last_indice()`/`other.first_indice()` evaluated. -/
def dvOverlapsWith (a b : Vec32) : Option Bool := do
  let af ← a.inner.head?
  let bl ← b.inner.getLast?
  if af.1 > bl.1 then some false
  else do
    let al ← a.inner.getLast?
    let bf ← b.inner.head?
    if al.1 < bf.1 then some false
    else some (!(lockStep a.inner b.inner).isEmpty)

/-- The binary-search loop of Rust `slice::binary_search_by` (also the model
for `indexed_file`'s `binary_search_raw_by`, which is the same algorithm over
records): classic `[left, right)` halving on a comparison against the probe.
Fuelled; `fuel ≥ right - left` suffices. -/
def bsLoop {α : Type} (xs : List α) (cmp : α → Ordering) : Nat → Nat → Nat → Option Nat
  | _, _, 0 => none
  | l, r, fuel + 1 =>
    if l < r then
      let mid := l + (r - l) / 2
      match xs.get? mid with
      | none => none
      | some x =>
        match cmp x with
        | .lt => bsLoop xs cmp (mid + 1) r fuel
        | .gt => bsLoop xs cmp l mid fuel
        | .eq => some mid
    else none

/-- `binary_search_by` returning `Some position` on a hit. -/
def binSearch {α : Type} (xs : List α) (cmp : α → Ordering) : Option Nat :=
  bsLoop xs cmp 0 xs.length (xs.length + 1)

/-- Rust's `u32::cmp`. -/
def natCmp (a b : Nat) : Ordering :=
  if a < b then .lt else if a = b then .eq else .gt

/-- Rust's `str::cmp` (byte-lexicographic; on Unicode text the UTF-8 byte
order coincides with code-point order, so characters are compared by code
point). -/
def charsCmp : List Char → List Char → Ordering
  | [], [] => .eq
  | [], _ :: _ => .lt
  | _ :: _, [] => .gt
  | a :: as_, b :: bs =>
    if a.toNat < b.toNat then .lt
    else if b.toNat < a.toNat then .gt
    else charsCmp as_ bs

/-- `str::cmp` on `String`s. -/
def strCmp (a b : String) : Ordering := charsCmp a.data b.data

/-- `Vector::has_dim`: `binary_search_by(|a| a.0.cmp(&dim)).is_ok()`. -/
def Vec32.hasDim (v : Vec32) (dim : Nat) : Bool :=
  (binSearch v.inner (fun p => natCmp p.1 dim)).isSome

example : Vec32.createNewRaw [(3, F32.ofNat 2), (1, F32.ofNat 1)] =
    ⟨[(1, F32.ofNat 1), (3, F32.ofNat 2)], fsqrt (F32.ofNat 5)⟩ := by decide
example : Vec32.createNewRaw [(0, F32.ofNat 3), (0, F32.ofNat 4)] =
    ⟨[(0, F32.ofNat 3)], F32.ofNat 5⟩ := by decide
example : (Vec32.mk [(0, F32.ofNat 1), (2, F32.ofNat 1)] F32.zero).hasDim 2 = true := by decide
example : (Vec32.mk [(0, F32.ofNat 1), (2, F32.ofNat 1)] F32.zero).hasDim 1 = false := by decide
example : Vec32.overlapsWith ⟨[(0, F32.ofNat 1), (2, F32.ofNat 1)], F32.zero⟩
    ⟨[(1, F32.ofNat 1), (3, F32.ofNat 1)], F32.zero⟩ = false := by decide
example : Vec32.overlapsWith ⟨[(0, F32.ofNat 1), (2, F32.ofNat 1)], F32.zero⟩
    ⟨[(2, F32.ofNat 1)], F32.zero⟩ = true := by decide

/-!
## `src/document_vector.rs`: the document-vector `Vector` and codec

This file carries its own copy of the sparse vector type.  Its private
`delete_dim` reads `retain(|(curr_dim, _)| *curr_dim == dim)` — it *keeps*
only the pair whose dimension equals `dim` (the doc comment above it says
"Deletes a given dimension and its value from the vector").
-/

/-- The sparse vector local to `src/document_vector.rs`. -/
structure DVec where
  inner : List (Nat × F32)
  length : F32
deriving DecidableEq

namespace DVec

/-- `document_vector.rs`'s `Vector::delete_dim`:
`retain(|(curr_dim, _)| *curr_dim == dim)` — as written in the source. -/
def deleteDim (v : DVec) (dim : Nat) : DVec :=
  { v with inner := v.inner.filter (fun p => p.1 = dim) }

/-- `document_vector.rs`'s `Vector::scalar` (same lock-step fold). -/
def scalar (a b : DVec) : F32 :=
  (lockStep a.inner b.inner).foldl (fun acc t => fadd acc (fmul t.2.1 t.2.2)) F32.zero

/-- `document_vector.rs`'s `Vector::similarity`:
`self.scalar(other) / (self.length * other.length)`. -/
def similarity (a b : DVec) : F32 :=
  fdiv (a.scalar b) (fmul a.length b.length)

end DVec

/-!
## Byte-level primitives and the `DocumentVector` codec
(`src/document_vector.rs`, 24-bit dimensions)

`f32` fields are serialized bit-for-bit; the codec never computes with
them, so in the codec they are modelled as their 32-bit patterns
(naturals below `2^32`).  A byte is a natural below 256 by construction.
-/

/-- Little-endian encoding of `n` into `k` bytes (as `byteorder`'s
`write_uN` does; higher bits beyond `8k` are cut, which the callers below
guard against or which mirrors Rust's `as u16` cast). -/
def leBytes : Nat → Nat → List Nat
  | 0, _ => []
  | k + 1, n => n % 256 :: leBytes k (n / 256)

/-- Little-endian read of `k` bytes; `none` when the input is too short
(an `Io` error in the source). -/
def readLE : Nat → List Nat → Option (Nat × List Nat)
  | 0, bs => some (0, bs)
  | _ + 1, [] => none
  | k + 1, b :: rest => (readLE k rest).map fun p => (b + 256 * p.1, p.2)

/-- A `DocumentVector<D>` as the codec sees it: the `f32` length bit
pattern, the `(u24 dim, f32-bits weight)` pairs and the payload document. -/
structure DocVec (D : Type) where
  length : Nat
  pairs : List (Nat × Nat)
  document : D
deriving DecidableEq

/-- `DocumentVector::encode` (little endian): `f32 length`, `u16 n_dims`
(the Rust `as u16` cast truncates), then `u24 dim` / `f32 weight` per pair,
then the payload.  `byteorder`'s `write_u24` asserts the value fits in
three bytes; that panic is modelled as `none`. -/
def DocVec.encode {D : Type} (encD : D → List Nat) (v : DocVec D) : Option (List Nat) :=
  if v.pairs.all (fun p => p.1 < 2 ^ 24) then
    some (leBytes 4 v.length ++ leBytes 2 (v.pairs.length % 2 ^ 16) ++
      (v.pairs.map (fun p => leBytes 3 p.1 ++ leBytes 4 p.2)).flatten ++
      encD v.document)
  else none

/-- The pair-reading loop of `DocumentVector::decode`: `n_dims` times read
`u24 dim` then `f32 weight`. -/
def readPairs : Nat → List Nat → Option (List (Nat × Nat) × List Nat)
  | 0, bs => some ([], bs)
  | k + 1, bs => do
    let (d, bs1) ← readLE 3 bs
    let (w, bs2) ← readLE 4 bs1
    let (ps, bs3) ← readPairs k bs2
    some ((d, w) :: ps, bs3)

/-- The field-parsing part of `DocumentVector::decode`: read the `f32`
length at face value, the `u16` count, then the pairs; return the parsed
fields together with the remaining bytes (handed to `D::decode`).
No validation of dimension ordering is performed. -/
def decodeFields (bs : List Nat) : Option (Nat × List (Nat × Nat) × List Nat) := do
  let (len32, bs1) ← readLE 4 bs
  let (cnt, bs2) ← readLE 2 bs1
  let (ps, bs3) ← readPairs cnt bs2
  some (len32, ps, bs3)

/-- `DocumentVector::decode`: parse the fields, then run the user decoder
on the remaining bytes. -/
def DocVec.decode {D : Type} (decD : List Nat → Option D) (bs : List Nat) :
    Option (DocVec D) := do
  let (len32, ps, rest) ← decodeFields bs
  let doc ← decD rest
  some ⟨len32, ps, doc⟩

example : DocVec.decode (fun _ => some ()) ((DocVec.mk 5 [(3, 7)] ()).encode (fun _ => [])).toList.flatten = some (DocVec.mk 5 [(3, 7)] ()) := by decide

/-!
## `src/inv_index.rs`: the inverted index

`Index` and `CVec` come from the external `indexed_file` and
`compressed_vec` crates; per §4.3 of the specification they act as plain
arrays here: `index.get2(i)` is positional lookup in the offset table and
`data.get_buffered(p)` positional lookup in the payload (both `None` out of
range).  `NewDimVecMap`'s `HashMap` input is modelled as an association
list with distinct keys; `build` sorts it by key first, so the hash-map
iteration order is immaterial.
-/

/-- The built inverted index: offset table (`index`) and payload (`data`). -/
structure InvIndex where
  index : List Nat
  data : List Nat
deriving DecidableEq

/-- The element-reading loop of `InvertedIndex::get`:
`for pos in (start+1)..(start+1+len) { out.push(*buf_vec.get_buffered(pos)?) }`. -/
def readCells (data : List Nat) (pos : Nat) : Nat → Option (List Nat)
  | 0 => some []
  | n + 1 => do
    let x ← data.get? pos
    let xs ← readCells data (pos + 1) n
    some (x :: xs)

/-- `InvertedIndex::get`: look up the offset for `dim`, read the length
cell, treat length 0 as the "padded, no posting" sentinel, else read the
posting. -/
def InvIndex.get (ii : InvIndex) (dim : Nat) : Option (List Nat) := do
  let start ← ii.index.get? dim
  let len ← ii.data.get? start
  if len = 0 then none
  else readCells ii.data (start + 1) len

/-- One iteration of the loop in `NewDimVecMap::build`: pad the gap
`last_dim+1 .. dim` with zero-length postings (on the first iteration
`last_dim` is set to `dim`, so the range is empty and *no* padding is
emitted below the first present dimension), then append the sorted posting
prefixed by its length. -/
def buildStep (st : List Nat × List Nat × Option Nat) (e : Nat × List Nat) :
    List Nat × List Nat × Option Nat :=
  let ld := st.2.2.getD e.1
  let pad := e.1 - (ld + 1)
  let fidx1 := st.1 ++ (List.range pad).map (fun i => st.2.1.length + i)
  let store1 := st.2.1 ++ List.replicate pad 0
  let sv := sortNat e.2
  (fidx1 ++ [store1.length], store1 ++ (sv.length :: sv), some e.1)

/-- Sort the association list by key (`sorted_map.sort_by(|a, b| a.0.cmp(&b.0))`). -/
def insEntry (x : Nat × List Nat) : List (Nat × List Nat) → List (Nat × List Nat)
  | [] => [x]
  | y :: ys => if y.1 < x.1 then y :: insEntry x ys else x :: y :: ys

/-- Stable insertion sort of the `(dim, posting)` entries by dim. -/
def sortEntries : List (Nat × List Nat) → List (Nat × List Nat)
  | [] => []
  | x :: xs => insEntry x (sortEntries xs)

/-- `NewDimVecMap::build`: sort the map by dimension, then run the
padding/append loop over every entry. -/
def buildII (m : List (Nat × List Nat)) : InvIndex :=
  let st := (sortEntries m).foldl buildStep ([], [], none)
  ⟨st.1, st.2.1⟩

example : buildII [(0, [3]), (2, [4])] = ⟨[0, 2, 3], [1, 3, 0, 1, 4]⟩ := by decide
example : (buildII [(0, [3]), (2, [4])]).get 1 = none := by decide
example : (buildII [(0, [3]), (2, [4])]).get 2 = some [4] := by decide
example : (buildII [(2, [9, 4]), (0, [3])]).get 2 = some [4, 9] := by decide
example : (buildII [(1, [7])]).get 1 = none := by decide
example : (buildII [(1, [7])]).get 0 = some [7] := by decide
example : (buildII [(0, [3, 3])]).get 0 = some [3, 3] := by decide

/-!
## `src/vector_store.rs`: `VectorStore::get_in_dims`

The store's bound dimension map (`DimVecMap::get` in `src/dim_map.rs`) is
abstracted as a function `getMap : dim → Option posting`, which is exactly
how `get_in_dims` consumes it.
-/

/-- `VectorStore::get_in_dims`: `filter_map(get)`, `flatten`, `sort_unstable`,
`dedup`. -/
def getInDims (getMap : Nat → Option (List Nat)) (dims : List Nat) : List Nat :=
  dedupNat (sortNat (dims.filterMap getMap).flatten)

example : getInDims (fun d => if d = 0 then some [5, 1] else if d = 2 then some [1, 3] else none)
    [0, 2, 7] = [1, 3, 5] := by decide

/-!
## `src/build/term_store.rs` and `src/build/mod.rs`: the index builder

`TermStoreBuilder`'s hash maps are modelled as: an association list for
`terms` (insertion order; ids are assigned as `terms.len()`), and total
functions with default 0 for `doc_freq` / `term_freq` (Rust's
`entry(..).or_default()`).  The `HashSet` of a document's term ids is
modelled by first-occurrence deduplication; `update_doc_freq` bumps each
distinct id once, so the set's iteration order is immaterial.
-/

/-- `TermStoreBuilder` state. -/
structure TSB where
  terms : List (String × Nat)
  docFreq : Nat → Nat
  termFreq : Nat × Nat → Nat

/-- The empty `TermStoreBuilder::new()`. -/
def TSB.empty : TSB := ⟨[], fun _ => 0, fun _ => 0⟩

/-- `TermStoreBuilder::get_term_id`. -/
def TSB.getTermId (b : TSB) (s : String) : Option Nat :=
  (b.terms.find? (fun p => p.1 = s)).map Prod.snd

/-- `TermStoreBuilder::get_or_add_term`: existing id, or append with
`terms.len()` as the fresh id. -/
def TSB.getOrAdd (b : TSB) (s : String) : TSB × Nat :=
  match b.getTermId s with
  | some id => (b, id)
  | none =>
    let id := b.terms.length
    ({ b with terms := b.terms ++ [(s, id)] }, id)

/-- `TermStoreBuilder::update_term_freq`: `*entry((term_id, doc_id)) += 1`. -/
def TSB.updateTermFreq (b : TSB) (tid did : Nat) : TSB :=
  { b with termFreq := fun p => if p = (tid, did) then b.termFreq p + 1 else b.termFreq p }

/-- `TermStoreBuilder::update_doc_freq`: one increment per id yielded. -/
def TSB.updateDocFreq (b : TSB) (ids : List Nat) : TSB :=
  ids.foldl (fun acc id =>
    { acc with docFreq := fun i => if i = id then acc.docFreq i + 1 else acc.docFreq i }) b

/-- First-occurrence de-duplication (the contents of the `HashSet<u32>` of
term ids in `insert_new_vec`, in first-insertion order). -/
def distinctIds (l : List Nat) : List Nat :=
  l.foldl (fun acc x => if x ∈ acc then acc else acc ++ [x]) []

/-- `IndexBuilder` state, as far as frequency bookkeeping is concerned:
the term store builder and the number of inserted vectors (each insertion
pushes one `DocumentVector`, whose content does not feed back into the
frequency counters). -/
structure IB where
  tsb : TSB
  nVecs : Nat

/-- `IndexBuilder::new()`. -/
def IB.empty : IB := ⟨TSB.empty, 0⟩

/-- The per-term loop of `insert_new_vec`: `get_or_add_term` then
`update_term_freq`, collecting the ids. -/
def addTermsLoop (b : TSB) (docId : Nat) (terms : List String) : TSB × List Nat :=
  terms.foldl (fun acc t =>
    let r := acc.1.getOrAdd t
    (r.1.updateTermFreq r.2 docId, acc.2 ++ [r.2])) (b, [])

/-- `IndexBuilder::insert_new_vec` (frequency bookkeeping): per-occurrence
term-frequency updates, then one `doc_freq` bump per *distinct* term id of
the document, then push the vector. -/
def IB.insertNewVec (ib : IB) (terms : List String) : IB :=
  let docId := ib.nVecs
  let r := addTermsLoop ib.tsb docId terms
  let tsb2 := r.1.updateDocFreq (distinctIds r.2)
  ⟨tsb2, ib.nVecs + 1⟩

/-- Fold a whole corpus through `insert_new_vec`. -/
def buildIB (docs : List (List String)) : IB :=
  docs.foldl IB.insertNewVec IB.empty

/-!
## `src/term_indexer.rs`: `TermIndexer::word_occurrence`

The term index is a sorted list of `IndexItem` records; `IndexedReader`'s
`binary_search_raw_by` decodes the probed record and compares its text, so
it is the standard binary search over the record list (`binSearch` above).
`read_line_raw(pos)` succeeds exactly when `pos` is in range; the
`expect` on a failed read (a panic) is modelled as `none`.
-/

/-- An `IndexItem`: term text plus stored frequency (`u16`). -/
structure IndexItem where
  text : String
  freq : Nat
deriving DecidableEq

/-- `TermIndexer::binary_search` over the records, comparing decoded text
against the query. -/
def tiBinSearch (idx : List IndexItem) (term : String) : Option Nat :=
  binSearch idx (fun it => strCmp it.text term)

/-- `TermIndexer::word_occurrence`: a missed search returns `Some(1)`; a
hit reads the record and returns its stored frequency. -/
def wordOccurrence (idx : List IndexItem) (term : String) : Option Nat :=
  match tiBinSearch idx term with
  | none => some 1
  | some pos => (idx.get? pos).map (fun it => it.freq)

example : (buildIB [["to", "drive", "a", "car"], ["to", "have", "a", "call"],
    ["to", "make", "a", "stand", "a"]]).tsb.getTermId "a" = some 2 := by decide
example : (buildIB [["to", "drive", "a", "car"], ["to", "have", "a", "call"],
    ["to", "make", "a", "stand", "a"]]).tsb.docFreq 2 = 3 := by decide
example : (buildIB [["to", "drive", "a", "car"], ["to", "have", "a", "call"],
    ["to", "make", "a", "stand", "a"]]).tsb.getTermId "stand" = some 7 := by decide
example : (buildIB [["to", "drive", "a", "car"], ["to", "have", "a", "call"],
    ["to", "make", "a", "stand", "a"]]).tsb.docFreq 7 = 1 := by decide
example : wordOccurrence [⟨"a", 3⟩, ⟨"b", 5⟩, ⟨"c", 2⟩] "b" = some 5 := by decide
example : wordOccurrence [⟨"a", 3⟩, ⟨"b", 5⟩, ⟨"c", 2⟩] "z" = some 1 := by decide

/-!
## Lemmas about sorting and deduplication
-/

theorem mem_insNat {x y : Nat} {l : List Nat} : y ∈ insNat x l ↔ y = x ∨ y ∈ l := by
  induction l with
  | nil => simp [insNat]
  | cons z zs ih =>
    by_cases h : z < x
    · simp only [insNat, if_pos h, List.mem_cons, ih]
      tauto
    · simp only [insNat, if_neg h, List.mem_cons]

theorem mem_sortNat {y : Nat} {l : List Nat} : y ∈ sortNat l ↔ y ∈ l := by
  induction l with
  | nil => simp [sortNat]
  | cons z zs ih => simp [sortNat, mem_insNat, ih]

theorem sorted_insNat {x : Nat} {l : List Nat} (h : l.Pairwise (· ≤ ·)) :
    (insNat x l).Pairwise (· ≤ ·) := by
  induction l with
  | nil => simp [insNat]
  | cons z zs ih =>
    rcases List.pairwise_cons.mp h with ⟨hz, hzs⟩
    by_cases hlt : z < x
    · simp only [insNat, if_pos hlt]
      refine List.pairwise_cons.mpr ⟨?_, ih hzs⟩
      intro y hy
      rcases mem_insNat.mp hy with rfl | hy
      · exact Nat.le_of_lt hlt
      · exact hz y hy
    · simp only [insNat, if_neg hlt]
      refine List.pairwise_cons.mpr ⟨?_, h⟩
      intro y hy
      rcases List.mem_cons.mp hy with rfl | hy
      · exact Nat.le_of_not_lt hlt
      · exact le_trans (Nat.le_of_not_lt hlt) (hz y hy)

theorem sorted_sortNat (l : List Nat) : (sortNat l).Pairwise (· ≤ ·) := by
  induction l with
  | nil => exact List.Pairwise.nil
  | cons z zs ih => exact sorted_insNat ih

theorem dedupNatAux_spec {prev : Nat} {l : List Nat} (h : (prev :: l).Pairwise (· ≤ ·)) :
    (dedupNatAux prev l).Pairwise (· < ·) ∧
    (∀ y ∈ dedupNatAux prev l, prev < y) ∧
    (∀ y, y ∈ dedupNatAux prev l ↔ y ∈ l ∧ y ≠ prev) := by
  induction l generalizing prev with
  | nil => simp [dedupNatAux]
  | cons z zs ih =>
    rcases List.pairwise_cons.mp h with ⟨hple, hzzs⟩
    have hpz : prev ≤ z := hple z (List.mem_cons_self z zs)
    by_cases hzp : z = prev
    · subst hzp
      have h' : (z :: zs).Pairwise (· ≤ ·) := by
        refine List.pairwise_cons.mpr ⟨?_, (List.pairwise_cons.mp hzzs).2⟩
        intro y hy
        exact hple y (List.mem_cons_of_mem _ hy)
      rcases ih h' with ⟨h1, h2, h3⟩
      refine ⟨by simpa [dedupNatAux] using h1, ?_, ?_⟩
      · intro y hy
        exact h2 y (by simpa [dedupNatAux] using hy)
      · intro y
        have hred : dedupNatAux z (z :: zs) = dedupNatAux z zs := by
          simp [dedupNatAux]
        rw [hred, h3 y]
        constructor
        · rintro ⟨hy, hne⟩
          exact ⟨List.mem_cons_of_mem _ hy, hne⟩
        · rintro ⟨hy, hne⟩
          rcases List.mem_cons.mp hy with rfl | hy
          · exact absurd rfl hne
          · exact ⟨hy, hne⟩
    · have hplt : prev < z := lt_of_le_of_ne hpz (fun he => hzp he.symm)
      rcases ih hzzs with ⟨h1, h2, h3⟩
      have hne : (z = prev) = False := by simp [hzp]
      refine ⟨?_, ?_, ?_⟩
      · simp only [dedupNatAux, if_neg hzp]
        refine List.pairwise_cons.mpr ⟨?_, h1⟩
        intro y hy
        exact h2 y hy
      · intro y hy
        simp only [dedupNatAux, if_neg hzp, List.mem_cons] at hy
        rcases hy with rfl | hy
        · exact hplt
        · exact lt_trans hplt (h2 y hy)
      · intro y
        simp only [dedupNatAux, if_neg hzp, List.mem_cons]
        rw [h3 y]
        constructor
        · rintro (rfl | ⟨hy, hney⟩)
          · exact ⟨Or.inl rfl, Nat.ne_of_gt hplt⟩
          · refine ⟨Or.inr hy, ?_⟩
            have := (List.pairwise_cons.mp hzzs).1 y hy
            exact Nat.ne_of_gt (lt_of_lt_of_le hplt this)
        · rintro ⟨(rfl | hy), hnep⟩
          · exact Or.inl rfl
          · by_cases hyz : y = z
            · exact Or.inl hyz
            · exact Or.inr ⟨hy, hyz⟩

theorem dedupNat_sorted {l : List Nat} (h : l.Pairwise (· ≤ ·)) :
    (dedupNat l).Pairwise (· < ·) := by
  cases l with
  | nil => exact List.Pairwise.nil
  | cons x xs =>
    rcases dedupNatAux_spec h with ⟨h1, h2, _⟩
    exact List.pairwise_cons.mpr ⟨h2, h1⟩

theorem mem_dedupNat {l : List Nat} (h : l.Pairwise (· ≤ ·)) {y : Nat} :
    y ∈ dedupNat l ↔ y ∈ l := by
  cases l with
  | nil => simp [dedupNat]
  | cons x xs =>
    rcases dedupNatAux_spec h with ⟨_, _, h3⟩
    simp only [dedupNat, List.mem_cons, h3 y]
    constructor
    · rintro (rfl | ⟨hy, _⟩)
      · exact Or.inl rfl
      · exact Or.inr hy
    · rintro (rfl | hy)
      · exact Or.inl rfl
      · by_cases hyx : y = x
        · exact Or.inl hyx
        · exact Or.inr ⟨hy, hyx⟩

/-- **C7.** For every list of dimensions, `get_in_dims` returns the set union
of the postings of those dimensions as a strictly ascending, duplicate-free
list of vector IDs: a vector ID is in the result exactly once (strict
sortedness precludes repeats) iff it lies in the posting of at least one
queried dimension. -/
theorem C7_get_in_dims_union (getMap : Nat → Option (List Nat)) (dims : List Nat) :
    (getInDims getMap dims).Pairwise (· < ·) ∧
    ∀ v, v ∈ getInDims getMap dims ↔ ∃ d ∈ dims, ∃ l, getMap d = some l ∧ v ∈ l := by
  have hsorted : (sortNat (dims.filterMap getMap).flatten).Pairwise (· ≤ ·) :=
    sorted_sortNat _
  refine ⟨dedupNat_sorted hsorted, ?_⟩
  intro v
  rw [getInDims, mem_dedupNat hsorted, mem_sortNat, List.mem_flatten]
  constructor
  · rintro ⟨l, hl, hv⟩
    rcases List.mem_filterMap.mp hl with ⟨d, hd, hget⟩
    exact ⟨d, hd, l, hget, hv⟩
  · rintro ⟨d, hd, l, hget, hv⟩
    exact ⟨l, List.mem_filterMap.mpr ⟨d, hd, hget⟩, hv⟩

/-- Closed witness for C7 at a concrete map and query (also certifying the
`Prop`-valued conclusion at a point). -/
theorem C7_witness :
    (getInDims (fun d => if d = 0 then some [5, 1] else if d = 2 then some [1, 3] else none)
      [0, 2, 7]).Pairwise (· < ·) ∧
    (3 ∈ getInDims (fun d => if d = 0 then some [5, 1] else if d = 2 then some [1, 3] else none)
      [0, 2, 7] ↔ ∃ d ∈ ([0, 2, 7] : List Nat),
        ∃ l, (if d = 0 then some [5, 1] else if d = 2 then some [1, 3] else none) = some l ∧
          3 ∈ l) :=
  ⟨(C7_get_in_dims_union _ [0, 2, 7]).1,
   (C7_get_in_dims_union (fun d => if d = 0 then some [5, 1] else
     if d = 2 then some [1, 3] else none) [0, 2, 7]).2 3⟩

/-!
## Lemmas about `sortPairs` / `dedupPairs`
-/

theorem mem_insPair {x y : Nat × F32} {l : List (Nat × F32)} :
    y ∈ insPair x l ↔ y = x ∨ y ∈ l := by
  induction l with
  | nil => simp [insPair]
  | cons z zs ih =>
    by_cases h : z.1 < x.1
    · simp only [insPair, if_pos h, List.mem_cons, ih]
      tauto
    · simp only [insPair, if_neg h, List.mem_cons]

theorem sortPairs_perm (l : List (Nat × F32)) : (sortPairs l).Perm l := by
  induction l with
  | nil => exact List.Perm.refl _
  | cons x xs ih =>
    have hins : ∀ (m : List (Nat × F32)), (insPair x m).Perm (x :: m) := by
      intro m
      induction m with
      | nil => exact List.Perm.refl _
      | cons z zs ihz =>
        by_cases h : z.1 < x.1
        · simp only [insPair, if_pos h]
          exact (ihz.cons z).trans (List.Perm.swap x z zs)
        · simp only [insPair, if_neg h]
          exact List.Perm.refl _
    exact (hins (sortPairs xs)).trans (ih.cons x)

theorem sorted_insPair {x : Nat × F32} {l : List (Nat × F32)}
    (h : l.Pairwise (fun p q => p.1 ≤ q.1)) :
    (insPair x l).Pairwise (fun p q => p.1 ≤ q.1) := by
  induction l with
  | nil => simp [insPair]
  | cons z zs ih =>
    rcases List.pairwise_cons.mp h with ⟨hz, hzs⟩
    by_cases hlt : z.1 < x.1
    · simp only [insPair, if_pos hlt]
      refine List.pairwise_cons.mpr ⟨?_, ih hzs⟩
      intro y hy
      rcases mem_insPair.mp hy with rfl | hy
      · exact Nat.le_of_lt hlt
      · exact hz y hy
    · simp only [insPair, if_neg hlt]
      refine List.pairwise_cons.mpr ⟨?_, h⟩
      intro y hy
      rcases List.mem_cons.mp hy with rfl | hy
      · exact Nat.le_of_not_lt hlt
      · exact le_trans (Nat.le_of_not_lt hlt) (hz y hy)

theorem sorted_sortPairs (l : List (Nat × F32)) :
    (sortPairs l).Pairwise (fun p q => p.1 ≤ q.1) := by
  induction l with
  | nil => exact List.Pairwise.nil
  | cons x xs ih => exact sorted_insPair ih

theorem sortPairs_eq_self {l : List (Nat × F32)}
    (h : l.Pairwise (fun p q => p.1 ≤ q.1)) : sortPairs l = l := by
  induction l with
  | nil => rfl
  | cons x xs ih =>
    rcases List.pairwise_cons.mp h with ⟨hx, hxs⟩
    rw [sortPairs, ih hxs]
    cases xs with
    | nil => rfl
    | cons z zs =>
      have : ¬ z.1 < x.1 := Nat.not_lt.mpr (hx z (List.mem_cons_self z zs))
      simp [insPair, this]

theorem dedupPairsAux_spec {prev : Nat × F32} {l : List (Nat × F32)}
    (h : (prev :: l).Pairwise (fun p q => p.1 ≤ q.1)) :
    (dedupPairsAux prev l).Pairwise (fun p q => p.1 < q.1) ∧
    (∀ y ∈ dedupPairsAux prev l, prev.1 < y.1) := by
  induction l generalizing prev with
  | nil => simp [dedupPairsAux]
  | cons z zs ih =>
    rcases List.pairwise_cons.mp h with ⟨hple, hzzs⟩
    have hpz : prev.1 ≤ z.1 := hple z (List.mem_cons_self z zs)
    by_cases hzp : z.1 = prev.1
    · have h' : (prev :: zs).Pairwise (fun p q => p.1 ≤ q.1) := by
        refine List.pairwise_cons.mpr ⟨?_, (List.pairwise_cons.mp hzzs).2⟩
        intro y hy
        exact hple y (List.mem_cons_of_mem _ hy)
      rcases ih h' with ⟨h1, h2⟩
      constructor
      · simpa [dedupPairsAux, hzp] using h1
      · intro y hy
        exact h2 y (by simpa [dedupPairsAux, hzp] using hy)
    · have hplt : prev.1 < z.1 := lt_of_le_of_ne hpz (fun he => hzp he.symm)
      rcases ih hzzs with ⟨h1, h2⟩
      constructor
      · simp only [dedupPairsAux, if_neg hzp]
        exact List.pairwise_cons.mpr ⟨fun y hy => h2 y hy, h1⟩
      · intro y hy
        simp only [dedupPairsAux, if_neg hzp, List.mem_cons] at hy
        rcases hy with rfl | hy
        · exact hplt
        · exact lt_trans hplt (h2 y hy)

theorem dedupPairs_sorted {l : List (Nat × F32)}
    (h : l.Pairwise (fun p q => p.1 ≤ q.1)) :
    (dedupPairs l).Pairwise (fun p q => p.1 < q.1) := by
  cases l with
  | nil => exact List.Pairwise.nil
  | cons x xs =>
    rcases dedupPairsAux_spec h with ⟨h1, h2⟩
    exact List.pairwise_cons.mpr ⟨h2, h1⟩

theorem dedupPairsAux_eq_self {x : Nat × F32} {xs : List (Nat × F32)}
    (h : (x :: xs).Pairwise (fun p q => p.1 < q.1)) : dedupPairsAux x xs = xs := by
  induction xs generalizing x with
  | nil => rfl
  | cons z zs ih =>
    rcases List.pairwise_cons.mp h with ⟨hx, hzs⟩
    have hne : ¬ z.1 = x.1 := Nat.ne_of_gt (hx z (List.mem_cons_self z zs))
    rw [dedupPairsAux, if_neg hne, ih hzs]

theorem dedupPairs_eq_self {l : List (Nat × F32)}
    (h : l.Pairwise (fun p q => p.1 < q.1)) : dedupPairs l = l := by
  cases l with
  | nil => rfl
  | cons x xs =>
    rw [dedupPairs, dedupPairsAux_eq_self h]

/-!
## C4: `Vector::create_new_raw`
-/

/-- The left-to-right `f32` sum of squared weights of a pair list
(the body of `Vector::calc_len` before the square root). -/
def sumSq (l : List (Nat × F32)) : F32 :=
  l.foldl (fun acc p => fadd acc (fmul p.2 p.2)) F32.zero

/-- **C4, counterexample.** On the duplicate-dimension input
`[(0, 3.0), (0, 4.0)]` the retained pairs are `[(0, 3.0)]`, yet the cached
length is `5.0 = sqrt (3² + 4²)` — computed over the *pre-dedup* list — and
not `3.0 = sqrt` of the retained pairs' squares, so the claim as stated is
false (the gap 5 vs 3 is far beyond any f32 rounding slack). -/
theorem C4_counterexample :
    (Vec32.createNewRaw [(0, F32.ofNat 3), (0, F32.ofNat 4)]).inner = [(0, F32.ofNat 3)] ∧
    (Vec32.createNewRaw [(0, F32.ofNat 3), (0, F32.ofNat 4)]).length = F32.ofNat 5 ∧
    fsqrt (sumSq [(0, F32.ofNat 3)]) = F32.ofNat 3 ∧
    F32.ofNat 5 ≠ F32.ofNat 3 := by
  refine ⟨by decide, by decide, by decide, by decide⟩

/-- **C4, amended.** `create_new_raw` sorts the pairs by dimension (stably)
and collapses duplicate dimensions to the first-encountered entry, so the
result is strictly ascending; the cached length is `sqrt` of the f32 sum of
squared weights of the *dim-sorted input including dropped duplicates* —
which coincides with the claim's "exactly those retained pairs" precisely
when the input dimensions are duplicate-free. -/
theorem C4_amended (l : List (Nat × F32)) :
    (Vec32.createNewRaw l).inner.Pairwise (fun p q => p.1 < q.1) ∧
    (Vec32.createNewRaw l).inner = dedupPairs (sortPairs l) ∧
    (Vec32.createNewRaw l).length = fsqrt (sumSq (sortPairs l)) ∧
    ((l.map Prod.fst).Nodup →
      (Vec32.createNewRaw l).length = fsqrt (sumSq (Vec32.createNewRaw l).inner)) := by
  have hsorted := sorted_sortPairs l
  have hinner : (Vec32.createNewRaw l).inner = dedupPairs (sortPairs l) := by
    show dedupPairs (sortPairs (sortPairs l)) = dedupPairs (sortPairs l)
    rw [sortPairs_eq_self hsorted]
  refine ⟨?_, hinner, rfl, ?_⟩
  · rw [hinner]
    exact dedupPairs_sorted hsorted
  · intro hnd
    have hperm : ((sortPairs l).map Prod.fst).Perm (l.map Prod.fst) :=
      (sortPairs_perm l).map Prod.fst
    have hnd' : ((sortPairs l).map Prod.fst).Nodup := hperm.nodup_iff.mpr hnd
    have hne : (sortPairs l).Pairwise (fun p q => p.1 ≠ q.1) :=
      (List.pairwise_map.mp hnd')
    have hlt : (sortPairs l).Pairwise (fun p q => p.1 < q.1) := by
      have := hsorted.and hne
      exact this.imp (fun h => lt_of_le_of_ne h.1 h.2)
    have : (Vec32.createNewRaw l).inner = sortPairs l := by
      rw [hinner, dedupPairs_eq_self hlt]
    rw [this]
    rfl

/-- Closed witness for C4 on a duplicate-free input: applies `C4_amended`
and discharges its inner nodup hypothesis at `[(3, 2.0), (1, 1.0)]`. -/
theorem C4_witness :
    (([(3, F32.ofNat 2), (1, F32.ofNat 1)].map Prod.fst).Nodup) ∧
    (Vec32.createNewRaw [(3, F32.ofNat 2), (1, F32.ofNat 1)]).length =
      fsqrt (sumSq (Vec32.createNewRaw [(3, F32.ofNat 2), (1, F32.ofNat 1)]).inner) :=
  ⟨by decide, (C4_amended [(3, F32.ofNat 2), (1, F32.ofNat 1)]).2.2.2 (by decide)⟩

/-!
## C6: `delete_dim` in the two vector implementations
-/

/-- **C6.** `src/document_vector.rs`'s `delete_dim` does the opposite of its
own doc comment ("Deletes a given dimension and its value from the
vector"): its `retain(|(curr_dim, _)| *curr_dim == dim)` keeps only the
targeted pair and deletes everything else.  On `[(0, 1.0), (1, 2.0)]`,
deleting dimension 0 leaves `[(0, 1.0)]` instead of `[(1, 2.0)]`.
`src/vector.rs`'s `delete_dim` (`retain(.. != dim)`) behaves as the claim
says, shown on the same input for contrast. -/
theorem C6_delete_dim_code_bug :
    (DVec.deleteDim ⟨[(0, F32.ofNat 1), (1, F32.ofNat 2)], F32.zero⟩ 0).inner
      = [(0, F32.ofNat 1)] ∧
    (Vec32.deleteDim ⟨[(0, F32.ofNat 1), (1, F32.ofNat 2)], F32.zero⟩ 0).inner
      = [(1, F32.ofNat 2)] ∧
    [(0, F32.ofNat 1)] ≠ [(1, F32.ofNat 2)] := by
  refine ⟨by decide, by decide, by decide⟩

/-!
## Byte-level round-trip lemmas (C2, C5)
-/

theorem readLE_leBytes {k n : Nat} (rest : List Nat) (h : n < 256 ^ k) :
    readLE k (leBytes k n ++ rest) = some (n, rest) := by
  induction k generalizing n with
  | zero =>
    have : n = 0 := Nat.lt_one_iff.mp (by simpa using h)
    subst this
    rfl
  | succ k ih =>
    have hdiv : n / 256 < 256 ^ k := by
      rw [Nat.div_lt_iff_lt_mul (by norm_num)]
      calc n < 256 ^ (k + 1) := h
        _ = 256 ^ k * 256 := by ring
    have hrec := ih hdiv
    simp only [leBytes, List.cons_append, readLE, List.append_eq, hrec]
    show some (n % 256 + 256 * (n / 256), rest) = some (n, rest)
    have hn : n % 256 + 256 * (n / 256) = n := by omega
    rw [hn]

theorem readPairs_enc {ps : List (Nat × Nat)} (rest : List Nat)
    (h : ∀ p ∈ ps, p.1 < 2 ^ 24 ∧ p.2 < 2 ^ 32) :
    readPairs ps.length
      ((ps.map (fun p => leBytes 3 p.1 ++ leBytes 4 p.2)).flatten ++ rest) =
      some (ps, rest) := by
  induction ps with
  | nil => rfl
  | cons p ps ih =>
    have hp := h p (List.mem_cons_self p ps)
    have hps : ∀ q ∈ ps, q.1 < 2 ^ 24 ∧ q.2 < 2 ^ 32 :=
      fun q hq => h q (List.mem_cons_of_mem _ hq)
    have h1 : p.1 < 256 ^ 3 := by exact_mod_cast hp.1
    have h2 : p.2 < 256 ^ 4 := by exact_mod_cast hp.2
    have hrec := ih hps
    simp only [List.length_cons, List.map_cons, List.flatten_cons, readPairs,
      List.append_assoc, readLE_leBytes _ h1, Option.bind_eq_bind,
      Option.some_bind, readLE_leBytes _ h2, hrec]

/-- **C5, counterexample.** A 20-byte input whose two dimensions are `2`
then `1` — strictly *descending* — decodes successfully (with the stored
length `0` taken at face value and the pairs kept in the given order); the
claim says such an input is rejected with a decode error. -/
theorem C5_counterexample :
    DocVec.decode (fun bs => some bs)
      ([0, 0, 0, 0] ++ [2, 0] ++ ([2, 0, 0] ++ [0, 0, 128, 63]) ++
        ([1, 0, 0] ++ [0, 0, 128, 63])) =
      some ⟨0, [(2, 1065353216), (1, 1065353216)], []⟩ := by
  decide

/-- **C5, amended.** `DocumentVector` decoding takes the stored length at
face value without recomputing it, and performs *no* validation of the
dimension values: any well-formed frame — whatever the dimension order,
duplicates included — parses to exactly the stored length, the stored
pairs in stored order, and the untouched remainder. -/
theorem C5_amended (len32 : Nat) (ps : List (Nat × Nat)) (rest : List Nat)
    (hlen32 : len32 < 2 ^ 32) (hcnt : ps.length ≤ 65535)
    (hp : ∀ p ∈ ps, p.1 < 2 ^ 24 ∧ p.2 < 2 ^ 32) :
    decodeFields (leBytes 4 len32 ++ leBytes 2 ps.length ++
      (ps.map (fun p => leBytes 3 p.1 ++ leBytes 4 p.2)).flatten ++ rest) =
      some (len32, ps, rest) := by
  have h4 : len32 < 256 ^ 4 := by exact_mod_cast hlen32
  have h2 : ps.length < 256 ^ 2 := by
    have : ps.length < 65536 := Nat.lt_succ_of_le hcnt
    exact_mod_cast this
  simp only [decodeFields, List.append_assoc, readLE_leBytes _ h4,
    Option.bind_eq_bind, Option.some_bind, readLE_leBytes _ h2,
    readPairs_enc rest hp]

/-- Closed witness for C5 (amended): a descending-dimension frame is
accepted as-is, via `C5_amended` with every hypothesis discharged at the
concrete input. -/
theorem C5_witness :
    decodeFields (leBytes 4 7 ++ leBytes 2 ([(2, 5), (1, 6)] : List (Nat × Nat)).length ++
      (([(2, 5), (1, 6)] : List (Nat × Nat)).map
        (fun p => leBytes 3 p.1 ++ leBytes 4 p.2)).flatten ++ [9]) =
      some (7, [(2, 5), (1, 6)], [9]) :=
  C5_amended 7 [(2, 5), (1, 6)] [9] (by decide) (by decide) (by decide)

/-- **C2.** For every `DocumentVector` with at most 65,535 pairs, every
dimension below `2^24` and 32-bit weight/length patterns, and every lawful
payload codec, decoding the bytes produced by `encode` yields the original:
bit-for-bit equal length, dimensions and weights, and the payload
round-tripped through the user codec. -/
theorem C2_encode_decode_roundtrip {D : Type} (encD : D → List Nat)
    (decD : List Nat → Option D) (hlaw : ∀ d, decD (encD d) = some d)
    (v : DocVec D) (hcnt : v.pairs.length ≤ 65535)
    (hp : ∀ p ∈ v.pairs, p.1 < 2 ^ 24 ∧ p.2 < 2 ^ 32) (hlen : v.length < 2 ^ 32) :
    ∃ bs, v.encode encD = some bs ∧ DocVec.decode decD bs = some v := by
  have hall : v.pairs.all (fun p => p.1 < 2 ^ 24) = true := by
    rw [List.all_eq_true]
    intro p hpmem
    exact decide_eq_true (hp p hpmem).1
  refine ⟨_, by rw [DocVec.encode, if_pos hall], ?_⟩
  have hcnt' : v.pairs.length % 2 ^ 16 = v.pairs.length :=
    Nat.mod_eq_of_lt (Nat.lt_succ_of_le hcnt)
  rw [DocVec.decode, hcnt']
  have hfields : decodeFields (leBytes 4 v.length ++ leBytes 2 v.pairs.length ++
      (v.pairs.map (fun p => leBytes 3 p.1 ++ leBytes 4 p.2)).flatten ++
      encD v.document) = some (v.length, v.pairs, encD v.document) :=
    C5_amended v.length v.pairs (encD v.document) hlen hcnt hp
  rw [List.append_assoc, List.append_assoc] at hfields
  simp only [List.append_assoc, hfields, Option.bind_eq_bind, Option.some_bind,
    hlaw v.document]

/-- Closed witness for C2: round-trips a concrete two-pair vector with a
unit payload through `C2_encode_decode_roundtrip`. -/
theorem C2_witness :
    ∃ bs, (DocVec.mk 17 [(1, 4), (3, 1065353216)] ()).encode (fun _ => [42]) = some bs ∧
      DocVec.decode (fun bs => if bs = [42] then some () else none) bs =
        some (DocVec.mk 17 [(1, 4), (3, 1065353216)] ()) :=
  C2_encode_decode_roundtrip (fun _ => [42])
    (fun bs => if bs = [42] then some () else none) (fun d => by cases d; decide)
    (DocVec.mk 17 [(1, 4), (3, 1065353216)] ()) (by decide) (by decide) (by decide)

/-!
## Binary-search correctness (shared by C8 and C10)
-/

theorem bsLoop_sound {α : Type} (xs : List α) (cmp : α → Ordering) :
    ∀ fuel l r pos, bsLoop xs cmp l r fuel = some pos →
      ∃ x, xs.get? pos = some x ∧ cmp x = .eq := by
  intro fuel
  induction fuel with
  | zero =>
    intro l r pos h
    exact absurd h (by simp [bsLoop])
  | succ f ih =>
    intro l r pos h
    simp only [bsLoop] at h
    by_cases hlr : l < r
    · rw [if_pos hlr] at h
      split at h
      · exact absurd h (by simp)
      · rename_i x hmid
        split at h
        · exact ih _ _ _ h
        · exact ih _ _ _ h
        · rename_i hcmp
          simp only [Option.some.injEq] at h
          exact ⟨x, h ▸ hmid, hcmp⟩
    · rw [if_neg hlr] at h
      exact absurd h (by simp)

theorem bsLoop_complete {α : Type} (xs : List α) (cmp : α → Ordering)
    (hA : ∀ i j x y, i < j → xs.get? i = some x → xs.get? j = some y →
      cmp x = .eq → cmp y ≠ .lt)
    (hB : ∀ i j x y, i < j → xs.get? i = some x → xs.get? j = some y →
      cmp y = .eq → cmp x ≠ .gt) :
    ∀ fuel l r, r ≤ xs.length → r - l ≤ fuel →
      (∃ i x, l ≤ i ∧ i < r ∧ xs.get? i = some x ∧ cmp x = .eq) →
      (bsLoop xs cmp l r fuel).isSome = true := by
  intro fuel
  induction fuel with
  | zero =>
    rintro l r hr hf ⟨i, x, hli, hir, -, -⟩
    omega
  | succ f ih =>
    rintro l r hr hf ⟨i, x, hli, hir, hgi, hei⟩
    have hlr : l < r := lt_of_le_of_lt hli hir
    have hmidlt : l + (r - l) / 2 < r := by omega
    have hmidlen : l + (r - l) / 2 < xs.length := lt_of_lt_of_le hmidlt hr
    have hy : xs.get? (l + (r - l) / 2) = some (xs.get ⟨l + (r - l) / 2, hmidlen⟩) :=
      List.get?_eq_get hmidlen
    simp only [bsLoop, if_pos hlr, hy]
    cases hcy : cmp (xs.get ⟨l + (r - l) / 2, hmidlen⟩) with
    | eq => simp
    | lt =>
      have hmi : l + (r - l) / 2 < i := by
        rcases Nat.lt_trichotomy i (l + (r - l) / 2) with hlt | heq | hgt
        · exact absurd hcy (hA i _ x _ hlt hgi hy hei)
        · have hx : x = xs.get ⟨l + (r - l) / 2, hmidlen⟩ :=
            Option.some.inj (by rw [← hgi, heq, hy])
          rw [← hx, hei] at hcy
          exact Ordering.noConfusion hcy
        · exact hgt
      exact ih (l + (r - l) / 2 + 1) r hr (by omega) ⟨i, x, by omega, hir, hgi, hei⟩
    | gt =>
      have him : i < l + (r - l) / 2 := by
        rcases Nat.lt_trichotomy i (l + (r - l) / 2) with hlt | heq | hgt
        · exact hlt
        · have hx : x = xs.get ⟨l + (r - l) / 2, hmidlen⟩ :=
            Option.some.inj (by rw [← hgi, heq, hy])
          rw [← hx, hei] at hcy
          exact Ordering.noConfusion hcy
        · exact absurd hcy (hB _ i _ x hgt hy hgi hei)
      apply ih l (l + (r - l) / 2) (le_trans (le_of_lt hmidlt) hr) (by omega)
      exact ⟨i, x, hli, him, hgi, hei⟩

/-- Success of `binSearch` is equivalent to the existence of an `eq`
element, for inputs "sorted" in the sense of the `hA`/`hB` monotonicity
facts (which the concrete instantiations derive from pairwise
sortedness). -/
theorem binSearch_isSome_iff {α : Type} (xs : List α) (cmp : α → Ordering)
    (hA : ∀ i j x y, i < j → xs.get? i = some x → xs.get? j = some y →
      cmp x = .eq → cmp y ≠ .lt)
    (hB : ∀ i j x y, i < j → xs.get? i = some x → xs.get? j = some y →
      cmp y = .eq → cmp x ≠ .gt) :
    (binSearch xs cmp).isSome = true ↔ ∃ x ∈ xs, cmp x = .eq := by
  constructor
  · intro h
    rw [Option.isSome_iff_exists] at h
    obtain ⟨pos, hpos⟩ := h
    obtain ⟨x, hx, hcx⟩ := bsLoop_sound xs cmp _ _ _ _ hpos
    exact ⟨x, List.get?_mem hx, hcx⟩
  · rintro ⟨x, hx, hcx⟩
    obtain ⟨⟨i, hi⟩, hget⟩ := List.mem_iff_get.mp hx
    refine bsLoop_complete xs cmp hA hB (xs.length + 1) 0 xs.length le_rfl (by omega)
      ⟨i, x, Nat.zero_le i, hi, ?_, hcx⟩
    rw [List.get?_eq_get hi, hget]

theorem natCmp_eq_iff {a b : Nat} : natCmp a b = .eq ↔ a = b := by
  unfold natCmp
  by_cases h1 : a < b
  · simp only [if_pos h1]
    constructor
    · intro h; exact Ordering.noConfusion h
    · intro h; omega
  · by_cases h2 : a = b
    · simp [h1, h2]
    · simp [h1, h2]

theorem natCmp_lt_iff {a b : Nat} : natCmp a b = .lt ↔ a < b := by
  unfold natCmp
  by_cases h1 : a < b
  · simp [h1]
  · by_cases h2 : a = b <;> simp [h1, h2]

theorem natCmp_gt_iff {a b : Nat} : natCmp a b = .gt ↔ b < a := by
  unfold natCmp
  by_cases h1 : a < b
  · simp only [if_pos h1]
    constructor
    · intro h; exact Ordering.noConfusion h
    · intro h; omega
  · by_cases h2 : a = b
    · subst h2
      simp only [if_neg h1, if_pos rfl]
      constructor
      · intro h; exact Ordering.noConfusion h
      · intro h; omega
    · simp only [if_neg h1, if_neg h2]
      constructor
      · intro _; omega
      · intro _; trivial

theorem pairwise_getq {α : Type} {R : α → α → Prop} {xs : List α} (h : xs.Pairwise R)
    {i j : Nat} {x y : α} (hij : i < j) (hi : xs.get? i = some x)
    (hj : xs.get? j = some y) : R x y := by
  obtain ⟨hi', hx⟩ := List.get?_eq_some.mp hi
  obtain ⟨hj', hy⟩ := List.get?_eq_some.mp hj
  have := List.pairwise_iff_get.mp h ⟨i, hi'⟩ ⟨j, hj'⟩ hij
  rw [hx, hy] at this
  exact this

/-- On a strictly dim-sorted pair list, the binary search of `has_dim`
succeeds exactly on the present dimensions. -/
theorem hasDim_iff {v : Vec32} (hs : v.inner.Pairwise (fun p q => p.1 < q.1)) (d : Nat) :
    v.hasDim d = true ↔ d ∈ v.inner.map Prod.fst := by
  have hA : ∀ i j x y, i < j → v.inner.get? i = some x → v.inner.get? j = some y →
      (fun p => natCmp p.1 d) x = .eq → (fun p => natCmp p.1 d) y ≠ .lt := by
    intro i j x y hij hi hj hex hc
    have hxy := pairwise_getq hs hij hi hj
    have hxd := natCmp_eq_iff.mp hex
    have hyd := natCmp_lt_iff.mp hc
    omega
  have hB : ∀ i j x y, i < j → v.inner.get? i = some x → v.inner.get? j = some y →
      (fun p => natCmp p.1 d) y = .eq → (fun p => natCmp p.1 d) x ≠ .gt := by
    intro i j x y hij hi hj hey hc
    have hxy := pairwise_getq hs hij hi hj
    have hyd := natCmp_eq_iff.mp hey
    have hxd := natCmp_gt_iff.mp hc
    omega
  rw [Vec32.hasDim, binSearch_isSome_iff _ _ hA hB]
  constructor
  · rintro ⟨x, hx, hcx⟩
    exact List.mem_map.mpr ⟨x, hx, natCmp_eq_iff.mp hcx⟩
  · intro hd
    obtain ⟨x, hx, hfx⟩ := List.mem_map.mp hd
    exact ⟨x, hx, natCmp_eq_iff.mpr hfx⟩

/-!
## The lock-step merge yields exactly the shared dimensions
-/

/-- Specification-side description of the shared dimensions: for each pair
of `a` (in order), look its dimension up in `b`. -/
def commonTriples (a b : List (Nat × F32)) : List (Nat × F32 × F32) :=
  a.filterMap (fun p => (b.find? (fun q => q.1 = p.1)).map (fun q => (p.1, p.2, q.2)))

theorem commonTriples_nil (a : List (Nat × F32)) : commonTriples a [] = [] := by
  rw [commonTriples, List.filterMap_eq_nil_iff]
  intro p _
  rfl

theorem commonTriples_congr {a : List (Nat × F32)} {b c : List (Nat × F32)}
    (h : ∀ p ∈ a, b.find? (fun q => q.1 = p.1) = c.find? (fun q => q.1 = p.1)) :
    commonTriples a b = commonTriples a c := by
  induction a with
  | nil => rfl
  | cons x xs ih =>
    rw [commonTriples, List.filterMap_cons, commonTriples, List.filterMap_cons,
      h x (List.mem_cons_self x xs)]
    have ht : commonTriples xs b = commonTriples xs c :=
      ih (fun p hp => h p (List.mem_cons_of_mem _ hp))
    rw [commonTriples] at ht
    rw [commonTriples] at ht
    cases c.find? (fun q => q.1 = x.1) <;> simp [ht]

theorem lockStepF_eq_commonTriples :
    ∀ fuel (a b : List (Nat × F32)), a.length + b.length ≤ fuel →
      a.Pairwise (fun p q => p.1 < q.1) → b.Pairwise (fun p q => p.1 < q.1) →
      lockStepF fuel a b = commonTriples a b := by
  intro fuel
  induction fuel with
  | zero =>
    intro a b hlen _ _
    have ha : a = [] := List.length_eq_zero.mp (by omega)
    subst ha
    rfl
  | succ f ih =>
    intro a b hlen ha hb
    cases a with
    | nil => rfl
    | cons x as =>
      cases b with
      | nil => exact (commonTriples_nil _).symm
      | cons y bs =>
        rcases List.pairwise_cons.mp ha with ⟨hxas, has⟩
        rcases List.pairwise_cons.mp hb with ⟨hybs, hbs⟩
        simp only [List.length_cons] at hlen
        by_cases h1 : x.1 < y.1
        · -- `x` is not in `b`: every key of `y :: bs` exceeds `x.1`
          rw [lockStepF, if_pos h1, ih as (y :: bs) (by simpa using (by omega)) has hb]
          have hfind : (y :: bs).find? (fun q => q.1 = x.1) = none := by
            rw [List.find?_eq_none]
            intro q hq
            have : x.1 < q.1 := by
              rcases List.mem_cons.mp hq with rfl | hq
              · exact h1
              · exact lt_trans h1 (hybs q hq)
            simp [Nat.ne_of_gt this]
          have hr : commonTriples (x :: as) (y :: bs) = commonTriples as (y :: bs) := by
            rw [commonTriples, List.filterMap_cons, hfind]
            rfl
          rw [hr]
        · by_cases h2 : y.1 < x.1
          · -- `y` is not in `a`: drop it on the right
            rw [lockStepF, if_neg h1, if_pos h2,
              ih (x :: as) bs (by simpa using (by omega)) ha hbs]
            apply commonTriples_congr
            intro p hp
            have hpy : ¬ (y.1 = p.1) := by
              have : y.1 < p.1 := by
                rcases List.mem_cons.mp hp with rfl | hp
                · exact h2
                · exact lt_trans h2 (hxas p hp)
              omega
            rw [List.find?_cons_of_neg]
            simpa using hpy
          · -- equal heads: yield the shared dimension
            have hxy : x.1 = y.1 := by omega
            rw [lockStepF, if_neg h1, if_neg h2,
              ih as bs (by simpa using (by omega)) has hbs]
            have hfind : (y :: bs).find? (fun q => q.1 = x.1) = some y := by
              apply List.find?_cons_of_pos
              simp [hxy]
            have htail : commonTriples as bs = commonTriples as (y :: bs) := by
              apply commonTriples_congr
              intro p hp
              have hpy : ¬ (y.1 = p.1) := by
                have : y.1 < p.1 := hxy ▸ hxas p hp
                omega
              rw [List.find?_cons_of_neg]
              simpa using hpy
            have hr : commonTriples (x :: as) (y :: bs) =
                (x.1, x.2, y.2) :: commonTriples as (y :: bs) := by
              rw [commonTriples, List.filterMap_cons, hfind]
              rfl
            rw [hr, ← htail]

/-- `LockStepIter` over two strictly dim-sorted streams yields exactly the
shared dimensions, in ascending order, with both values. -/
theorem lockStep_eq_commonTriples {a b : List (Nat × F32)}
    (ha : a.Pairwise (fun p q => p.1 < q.1)) (hb : b.Pairwise (fun p q => p.1 < q.1)) :
    lockStep a b = commonTriples a b :=
  lockStepF_eq_commonTriples _ a b le_rfl ha hb

/-!
## C3: `Vector::similarity`
-/

/-- The f32 dot product over the shared dimensions (left-to-right fold,
starting from `0.0` as Rust's `Sum<f32>` does). -/
def dotCommon (a b : Vec32) : F32 :=
  (commonTriples a.inner b.inner).foldl (fun acc t => fadd acc (fmul t.2.1 t.2.2)) F32.zero

/-- **C3, counterexample.** `similarity` has no zero-length special case:
it always divides.  For `a = ⟨[(0, 1.0)], length = 0.0⟩`,
`similarity(a, a) = 1.0 / (0.0 * 0.0) = +∞`, not `0`. -/
theorem C3_counterexample :
    Vec32.similarity ⟨[(0, F32.ofNat 1)], F32.zero⟩ ⟨[(0, F32.ofNat 1)], F32.zero⟩ =
      F32.inf false ∧
    (∀ s g, F32.inf false ≠ F32.fin s 0 g) :=
  ⟨by decide, fun s g h => F32.noConfusion h⟩

/-- **C3, amended.** `similarity(a, b)` always returns the f32 quotient of
the lock-step dot product over the shared dimensions by the f32 product of
the two cached lengths — with *no* zero-length guard, so when either cached
length is zero the result is the IEEE quotient (±∞ or NaN), never the
claimed `0`.  Stated over strictly dim-sorted vectors so that the
lock-step merge provably ranges over exactly the shared dimensions. -/
theorem C3_similarity_amended (a b : Vec32)
    (ha : a.inner.Pairwise (fun p q => p.1 < q.1))
    (hb : b.inner.Pairwise (fun p q => p.1 < q.1)) :
    a.similarity b = fdiv (dotCommon a b) (fmul a.length b.length) := by
  rw [Vec32.similarity, Vec32.scalar, dotCommon, lockStep_eq_commonTriples ha hb]

/-- Closed witness for C3 (amended) at sorted two-dimensional vectors. -/
theorem C3_witness :
    Vec32.similarity ⟨[(0, F32.ofNat 2), (2, F32.ofNat 1)], F32.ofNat 3⟩
        ⟨[(1, F32.ofNat 5), (2, F32.ofNat 4)], F32.ofNat 6⟩ =
      fdiv (dotCommon ⟨[(0, F32.ofNat 2), (2, F32.ofNat 1)], F32.ofNat 3⟩
        ⟨[(1, F32.ofNat 5), (2, F32.ofNat 4)], F32.ofNat 6⟩)
        (fmul (F32.ofNat 3) (F32.ofNat 6)) :=
  C3_similarity_amended ⟨[(0, F32.ofNat 2), (2, F32.ofNat 1)], F32.ofNat 3⟩
    ⟨[(1, F32.ofNat 5), (2, F32.ofNat 4)], F32.ofNat 6⟩ (by decide) (by decide)

/-!
## C8: `overlaps_with` ↔ shared dimension
-/

theorem sorted_head_le {l : List (Nat × F32)} (h : l.Pairwise (fun p q => p.1 < q.1)) :
    ∀ p ∈ l, (l.head?.map Prod.fst).getD 0 ≤ p.1 := by
  cases l with
  | nil => intro p hp; cases hp
  | cons x xs =>
    intro p hp
    rcases List.mem_cons.mp hp with rfl | hp
    · show p.1 ≤ p.1
      exact le_rfl
    · have := (List.pairwise_cons.mp h).1 p hp
      show x.1 ≤ p.1
      omega

theorem sorted_le_last {l : List (Nat × F32)} (h : l.Pairwise (fun p q => p.1 < q.1)) :
    ∀ p ∈ l, p.1 ≤ (l.getLast?.map Prod.fst).getD 0 := by
  induction l with
  | nil => intro p hp; cases hp
  | cons x xs ih =>
    intro p hp
    cases xs with
    | nil =>
      rcases List.mem_cons.mp hp with rfl | hp
      · simp
      · cases hp
    | cons y ys =>
      have hrec := ih (List.pairwise_cons.mp h).2
      have hlast : ((x :: y :: ys).getLast?.map Prod.fst).getD 0 =
          (((y :: ys).getLast?.map Prod.fst).getD 0) := by
        rw [List.getLast?_cons_cons]
      rw [hlast]
      rcases List.mem_cons.mp hp with rfl | hp
      · have hy : p.1 < y.1 := (List.pairwise_cons.mp h).1 y (List.mem_cons_self y ys)
        have := hrec y (List.mem_cons_self y ys)
        omega
      · exact hrec p hp

theorem commonTriples_eq_nil_iff (a b : List (Nat × F32)) :
    commonTriples a b = [] ↔ ¬ ∃ d, d ∈ a.map Prod.fst ∧ d ∈ b.map Prod.fst := by
  rw [commonTriples, List.filterMap_eq_nil_iff]
  constructor
  · rintro h ⟨d, hda, hdb⟩
    obtain ⟨p, hp, hpd⟩ := List.mem_map.mp hda
    obtain ⟨q, hq, hqd⟩ := List.mem_map.mp hdb
    have hnone := h p hp
    rw [Option.map_eq_none', List.find?_eq_none] at hnone
    exact absurd (by simp [hqd, hpd] : ((fun r => decide (r.1 = p.1)) q) = true)
      (by simpa using hnone q hq)
  · intro h p hp
    rw [Option.map_eq_none', List.find?_eq_none]
    intro q hq hqp
    refine h ⟨p.1, List.mem_map.mpr ⟨p, hp, rfl⟩, List.mem_map.mpr ⟨q, hq, ?_⟩⟩
    simpa using hqp

/-- For strictly dim-sorted vectors, `vector.rs`'s guarded
`overlaps_with(a, b)` is true iff some dimension `d` has `has_dim(d)` true
in both (and is false whenever either vector is empty, since an empty
vector has no dimensions). -/
theorem overlaps_iff_hasDim (a b : Vec32)
    (ha : a.inner.Pairwise (fun p q => p.1 < q.1))
    (hb : b.inner.Pairwise (fun p q => p.1 < q.1)) :
    a.overlapsWith b = true ↔ ∃ d, a.hasDim d = true ∧ b.hasDim d = true := by
  have hdims : (∃ d, a.hasDim d = true ∧ b.hasDim d = true) ↔
      ∃ d, d ∈ a.inner.map Prod.fst ∧ d ∈ b.inner.map Prod.fst := by
    constructor
    · rintro ⟨d, h1, h2⟩
      exact ⟨d, (hasDim_iff ha d).mp h1, (hasDim_iff hb d).mp h2⟩
    · rintro ⟨d, h1, h2⟩
      exact ⟨d, (hasDim_iff ha d).mpr h1, (hasDim_iff hb d).mpr h2⟩
  rw [hdims, Vec32.overlapsWith]
  cases hco : a.couldOverlap b with
  | true =>
    rw [if_neg (by simp [hco]), lockStep_eq_commonTriples ha hb]
    constructor
    · intro hne
      by_contra hnod
      rw [← commonTriples_eq_nil_iff a.inner b.inner] at hnod
      simp [hnod] at hne
    · intro hd
      have hne : commonTriples a.inner b.inner ≠ [] := by
        intro hnil
        exact (commonTriples_eq_nil_iff a.inner b.inner).mp hnil hd
      simpa [List.isEmpty_iff] using hne
  | false =>
    rw [if_pos (show (!false) = true from rfl)]
    constructor
    · intro h
      exact absurd h (by simp)
    · rintro ⟨d, hda, hdb⟩
      obtain ⟨p, hp, hpd⟩ := List.mem_map.mp hda
      obtain ⟨q, hq, hqd⟩ := List.mem_map.mp hdb
      have hane : a.inner ≠ [] := fun he => by rw [he] at hp; cases hp
      have hbne : b.inner ≠ [] := fun he => by rw [he] at hq; cases hq
      have hfa := sorted_head_le ha p hp
      have hla := sorted_le_last ha p hp
      have hfb := sorted_head_le hb q hq
      have hlb := sorted_le_last hb q hq
      rw [Vec32.couldOverlap] at hco
      simp only [Bool.not_eq_false', Bool.or_eq_true, Vec32.isEmpty,
        List.isEmpty_iff, decide_eq_true_eq] at hco
      rcases hco with ((h | h) | h) | h
      · exact absurd h hane
      · exact absurd h hbne
      · rw [Vec32.firstIndice, Vec32.lastIndice] at h
        omega
      · rw [Vec32.firstIndice, Vec32.lastIndice] at h
        omega

/-- C8 counterexample: the `overlaps_with` copy of `document_vector.rs`
(lines 221-231, a source the claim cites) does *not* return false on an
empty vector — it panics in `first_indice()`/`last_indice()`'s `unwrap()`
(modelled as `none`), while the guarded `vector.rs` twin does return
false on the same (trivially strictly-sorted) input. -/
theorem C8_counterexample :
    dvOverlapsWith ⟨[], F32.zero⟩ ⟨[(0, F32.ofNat 1)], F32.zero⟩ = none ∧
    dvOverlapsWith ⟨[], F32.zero⟩ ⟨[(0, F32.ofNat 1)], F32.zero⟩ ≠
      some false ∧
    Vec32.overlapsWith ⟨[], F32.zero⟩ ⟨[(0, F32.ofNat 1)], F32.zero⟩ =
      false := by
  decide

/-- **C8** (amended). For strictly dim-sorted vectors: `vector.rs`'s
guarded `overlaps_with(a, b)` is true iff some dimension `d` has
`has_dim(d)` true in both (hence false whenever either vector is empty);
the unguarded `document_vector.rs` copy computes the same answer whenever
both vectors are non-empty, but *panics* (returns no value) whenever
either vector is empty, instead of returning false as claimed. -/
theorem C8_amended (a b : Vec32)
    (ha : a.inner.Pairwise (fun p q => p.1 < q.1))
    (hb : b.inner.Pairwise (fun p q => p.1 < q.1)) :
    (a.overlapsWith b = true ↔ ∃ d, a.hasDim d = true ∧ b.hasDim d = true) ∧
    (a.inner ≠ [] → b.inner ≠ [] →
      dvOverlapsWith a b = some (a.overlapsWith b)) ∧
    (a.inner = [] ∨ b.inner = [] → dvOverlapsWith a b = none) := by
  refine ⟨overlaps_iff_hasDim a b ha hb, ?_, ?_⟩
  · intro hane hbne
    obtain ⟨pa, hpa⟩ := Option.isSome_iff_exists.mp (List.head?_isSome.mpr hane)
    obtain ⟨qb, hqb⟩ :=
      Option.isSome_iff_exists.mp (List.getLast?_isSome.mpr hbne)
    obtain ⟨pa2, hpa2⟩ :=
      Option.isSome_iff_exists.mp (List.getLast?_isSome.mpr hane)
    obtain ⟨qb2, hqb2⟩ :=
      Option.isSome_iff_exists.mp (List.head?_isSome.mpr hbne)
    have hfa : a.firstIndice = pa.1 := by
      rw [Vec32.firstIndice, hpa]
      rfl
    have hlb : b.lastIndice = qb.1 := by
      rw [Vec32.lastIndice, hqb]
      rfl
    have hla : a.lastIndice = pa2.1 := by
      rw [Vec32.lastIndice, hpa2]
      rfl
    have hfb : b.firstIndice = qb2.1 := by
      rw [Vec32.firstIndice, hqb2]
      rfl
    have haem : a.isEmpty = false := by
      rw [Vec32.isEmpty]
      simp [hane]
    have hbem : b.isEmpty = false := by
      rw [Vec32.isEmpty]
      simp [hbne]
    by_cases h1 : pa.1 > qb.1
    · have hL : dvOverlapsWith a b = some false := by
        rw [dvOverlapsWith, hpa]
        simp only [Option.bind_eq_bind, Option.some_bind]
        rw [hqb]
        simp only [Option.some_bind]
        rw [if_pos h1]
      have hco : a.couldOverlap b = false := by
        rw [Vec32.couldOverlap, hfa, hlb]
        simp [h1]
      have hR : a.overlapsWith b = false := by
        rw [Vec32.overlapsWith, if_pos (by rw [hco]; rfl)]
      rw [hL, hR]
    · by_cases h2 : pa2.1 < qb2.1
      · have hL : dvOverlapsWith a b = some false := by
          rw [dvOverlapsWith, hpa]
          simp only [Option.bind_eq_bind, Option.some_bind]
          rw [hqb]
          simp only [Option.some_bind]
          rw [if_neg h1, hpa2]
          simp only [Option.some_bind]
          rw [hqb2]
          simp only [Option.some_bind]
          rw [if_pos h2]
        have hco : a.couldOverlap b = false := by
          rw [Vec32.couldOverlap, hla, hfb]
          simp [h2]
        have hR : a.overlapsWith b = false := by
          rw [Vec32.overlapsWith, if_pos (by rw [hco]; rfl)]
        rw [hL, hR]
      · have hL : dvOverlapsWith a b =
            some (!(lockStep a.inner b.inner).isEmpty) := by
          rw [dvOverlapsWith, hpa]
          simp only [Option.bind_eq_bind, Option.some_bind]
          rw [hqb]
          simp only [Option.some_bind]
          rw [if_neg h1, hpa2]
          simp only [Option.some_bind]
          rw [hqb2]
          simp only [Option.some_bind]
          rw [if_neg h2]
        have hco : a.couldOverlap b = true := by
          rw [Vec32.couldOverlap, hfa, hlb, hla, hfb, haem, hbem]
          simp [h1, h2]
        have hR : a.overlapsWith b =
            !(lockStep a.inner b.inner).isEmpty := by
          rw [Vec32.overlapsWith, if_neg (by rw [hco]; decide)]
        rw [hL, hR]
  · intro hemp
    rcases hemp with h | h
    · rw [dvOverlapsWith, h]
      rfl
    · rcases hh : a.inner.head? with _ | p
      · rw [dvOverlapsWith, hh]
        rfl
      · rw [dvOverlapsWith, hh, h]
        simp

/-- Closed witness for C8: two non-empty sorted vectors sharing
dimension 2 — the guarded equivalence holds and the `document_vector.rs`
copy returns the same value wrapped in `some`; the hypotheses are
discharged concretely. -/
theorem C8_witness :
    (Vec32.overlapsWith ⟨[(0, F32.ofNat 1), (2, F32.ofNat 1)], F32.zero⟩
        ⟨[(2, F32.ofNat 1), (3, F32.ofNat 1)], F32.zero⟩ = true ↔
      ∃ d, Vec32.hasDim ⟨[(0, F32.ofNat 1), (2, F32.ofNat 1)], F32.zero⟩ d = true ∧
        Vec32.hasDim ⟨[(2, F32.ofNat 1), (3, F32.ofNat 1)], F32.zero⟩ d = true) ∧
    dvOverlapsWith ⟨[(0, F32.ofNat 1), (2, F32.ofNat 1)], F32.zero⟩
        ⟨[(2, F32.ofNat 1), (3, F32.ofNat 1)], F32.zero⟩ =
      some (Vec32.overlapsWith ⟨[(0, F32.ofNat 1), (2, F32.ofNat 1)], F32.zero⟩
        ⟨[(2, F32.ofNat 1), (3, F32.ofNat 1)], F32.zero⟩) :=
  ⟨(C8_amended ⟨[(0, F32.ofNat 1), (2, F32.ofNat 1)], F32.zero⟩
      ⟨[(2, F32.ofNat 1), (3, F32.ofNat 1)], F32.zero⟩
      (by decide) (by decide)).1,
   (C8_amended ⟨[(0, F32.ofNat 1), (2, F32.ofNat 1)], F32.zero⟩
      ⟨[(2, F32.ofNat 1), (3, F32.ofNat 1)], F32.zero⟩
      (by decide) (by decide)).2.1 (by decide) (by decide)⟩

/-!
## C10: `TermIndexer::word_occurrence`
-/

theorem charsCmp_eq_iff : ∀ (as bs : List Char), charsCmp as bs = .eq ↔ as = bs := by
  intro as
  induction as with
  | nil =>
    intro bs
    cases bs with
    | nil => simp [charsCmp]
    | cons b bs =>
      simp only [charsCmp]
      constructor
      · intro h; exact Ordering.noConfusion h
      · intro h; exact List.noConfusion h
  | cons a as ih =>
    intro bs
    cases bs with
    | nil =>
      simp only [charsCmp]
      constructor
      · intro h; exact Ordering.noConfusion h
      · intro h; exact List.noConfusion h
    | cons b bs =>
      rcases Nat.lt_trichotomy a.toNat b.toNat with h1 | h1 | h1
      · have hne : a ≠ b := fun he => by rw [he] at h1; omega
        simp only [charsCmp, if_pos h1]
        constructor
        · intro h; exact Ordering.noConfusion h
        · intro h
          exact absurd (List.cons.inj h).1 hne
      · have hab : a = b := Char.ext (UInt32.toNat.inj h1)
        subst hab
        have hnlt : ¬ a.toNat < a.toNat := lt_irrefl _
        simp only [charsCmp, if_neg hnlt, List.cons.injEq, true_and]
        exact ih bs
      · have hne : a ≠ b := fun he => by rw [he] at h1; omega
        have hnlt : ¬ a.toNat < b.toNat := by omega
        simp only [charsCmp, if_neg hnlt, if_pos h1]
        constructor
        · intro h; exact Ordering.noConfusion h
        · intro h
          exact absurd (List.cons.inj h).1 hne

theorem charsCmp_lt_asym : ∀ (as bs : List Char),
    charsCmp as bs = .lt → charsCmp bs as = .gt := by
  intro as
  induction as with
  | nil =>
    intro bs h
    cases bs with
    | nil => exact Ordering.noConfusion h
    | cons b bs => rfl
  | cons a as ih =>
    intro bs h
    cases bs with
    | nil => exact Ordering.noConfusion h
    | cons b bs =>
      rcases Nat.lt_trichotomy a.toNat b.toNat with h1 | h1 | h1
      · have hnlt : ¬ b.toNat < a.toNat := by omega
        simp only [charsCmp, if_neg hnlt, if_pos h1]
      · have hnlt : ¬ a.toNat < b.toNat := by omega
        have hnlt' : ¬ b.toNat < a.toNat := by omega
        simp only [charsCmp, if_neg hnlt, if_neg hnlt'] at h ⊢
        exact ih bs h
      · have hnlt : ¬ a.toNat < b.toNat := by omega
        rw [charsCmp, if_neg hnlt, if_pos h1] at h
        exact Ordering.noConfusion h

theorem strCmp_eq_iff {a b : String} : strCmp a b = .eq ↔ a = b := by
  constructor
  · intro h
    have hdata : a.data = b.data := (charsCmp_eq_iff a.data b.data).mp h
    cases a with
    | mk da =>
      cases b with
      | mk db =>
        cases hdata
        rfl
  · intro h
    subst h
    exact (charsCmp_eq_iff _ _).mpr rfl

theorem strCmp_lt_asym {a b : String} (h : strCmp a b = .lt) : strCmp b a = .gt :=
  charsCmp_lt_asym a.data b.data h

/-- On a strictly text-sorted index, two items with the same text are the
same item. -/
theorem sorted_items_text_inj {idx : List IndexItem}
    (hs : idx.Pairwise (fun a b => strCmp a.text b.text = .lt))
    {x y : IndexItem} (hx : x ∈ idx) (hy : y ∈ idx) (hxy : x.text = y.text) :
    x = y := by
  obtain ⟨⟨i, hi⟩, hgx⟩ := List.mem_iff_get.mp hx
  obtain ⟨⟨j, hj⟩, hgy⟩ := List.mem_iff_get.mp hy
  have hrefl : strCmp y.text y.text = .eq := strCmp_eq_iff.mpr rfl
  rcases Nat.lt_trichotomy i j with hij | hij | hij
  · have hlt := pairwise_getq hs hij (by rw [List.get?_eq_get hi, hgx])
      (by rw [List.get?_eq_get hj, hgy])
    rw [hxy] at hlt
    rw [hrefl] at hlt
    exact Ordering.noConfusion hlt
  · subst hij
    rw [← hgx, ← hgy]
  · have hlt := pairwise_getq hs hij (by rw [List.get?_eq_get hj, hgy])
      (by rw [List.get?_eq_get hi, hgx])
    rw [hxy] at hlt
    rw [hrefl] at hlt
    exact Ordering.noConfusion hlt

/-- **C10.** On a (strictly text-sorted) term index, `word_occurrence`
never returns `None`: a term not present yields `Some 1`, and a present
term yields `Some` of its stored frequency. -/
theorem C10_word_occurrence_total (idx : List IndexItem) (term : String)
    (hs : idx.Pairwise (fun a b => strCmp a.text b.text = .lt)) :
    (wordOccurrence idx term).isSome = true ∧
    (∀ it ∈ idx, it.text = term → wordOccurrence idx term = some it.freq) ∧
    ((∀ it ∈ idx, it.text ≠ term) → wordOccurrence idx term = some 1) := by
  have hA : ∀ i j x y, i < j → idx.get? i = some x → idx.get? j = some y →
      (fun it => strCmp it.text term) x = .eq → (fun it => strCmp it.text term) y ≠ .lt := by
    intro i j x y hij hi hj hex hc
    have hc' : strCmp y.text term = .lt := hc
    have hxy := pairwise_getq hs hij hi hj
    have hxt : x.text = term := strCmp_eq_iff.mp hex
    rw [hxt] at hxy
    have hgt := strCmp_lt_asym hxy
    rw [hc'] at hgt
    exact Ordering.noConfusion hgt
  have hB : ∀ i j x y, i < j → idx.get? i = some x → idx.get? j = some y →
      (fun it => strCmp it.text term) y = .eq → (fun it => strCmp it.text term) x ≠ .gt := by
    intro i j x y hij hi hj hey hc
    have hc' : strCmp x.text term = .gt := hc
    have hxy := pairwise_getq hs hij hi hj
    have hyt : y.text = term := strCmp_eq_iff.mp hey
    rw [hyt] at hxy
    rw [hxy] at hc'
    exact Ordering.noConfusion hc' 
  cases hsearch : tiBinSearch idx term with
  | none =>
    have hno : ¬ ∃ x ∈ idx, (fun it => strCmp it.text term) x = .eq := by
      intro hex
      have := (binSearch_isSome_iff idx (fun it => strCmp it.text term) hA hB).mpr hex
      rw [tiBinSearch] at hsearch
      rw [hsearch] at this
      exact Bool.noConfusion this
    refine ⟨by simp [wordOccurrence, hsearch], ?_, ?_⟩
    · intro it hit htext
      exact absurd ⟨it, hit, strCmp_eq_iff.mpr htext⟩ hno
    · intro _
      simp [wordOccurrence, hsearch]
  | some pos =>
    obtain ⟨x, hgx, hcx⟩ := bsLoop_sound idx (fun it => strCmp it.text term) _ _ _ _ hsearch
    have hxt : x.text = term := strCmp_eq_iff.mp hcx
    have hwo : wordOccurrence idx term = some x.freq := by
      rw [wordOccurrence, hsearch]
      show Option.map (fun it => it.freq) (idx.get? pos) = some x.freq
      rw [hgx]
      rfl
    refine ⟨by simp [hwo], ?_, ?_⟩
    · intro it hit htext
      have : it = x := sorted_items_text_inj hs hit (List.get?_mem hgx) (by rw [htext, hxt])
      rw [hwo, this]
    · intro habs
      exact absurd hxt (habs x (List.get?_mem hgx))

/-- Closed witness for C10 on a concrete three-term index: both the hit
("b" → stored frequency 5) and the miss ("z" → 1), with the sortedness
hypothesis discharged concretely. -/
theorem C10_witness :
    wordOccurrence [⟨"a", 3⟩, ⟨"b", 5⟩, ⟨"c", 2⟩] "b" = some 5 ∧
    wordOccurrence [⟨"a", 3⟩, ⟨"b", 5⟩, ⟨"c", 2⟩] "z" = some 1 :=
  ⟨(C10_word_occurrence_total [⟨"a", 3⟩, ⟨"b", 5⟩, ⟨"c", 2⟩] "b" (by decide)).2.1
      ⟨"b", 5⟩ (by decide) rfl,
   (C10_word_occurrence_total [⟨"a", 3⟩, ⟨"b", 5⟩, ⟨"c", 2⟩] "z" (by decide)).2.2
      (by decide)⟩

/-!
## C9: document frequencies in the index builder

The key invariant of `TermStoreBuilder.terms` is positional: the entry
stored at index `i` carries id `i` (ids are handed out as `terms.len()`).
Everything else — id injectivity, id bounds — follows from it.
-/

/-- The positional id invariant of the term table. -/
def idsPositional (b : TSB) : Prop :=
  ∀ i p, b.terms.get? i = some p → p.2 = i

theorem getTermId_lt {b : TSB} (hW : idsPositional b) {s : String} {id : Nat}
    (h : b.getTermId s = some id) : id < b.terms.length := by
  rw [TSB.getTermId] at h
  cases hf : b.terms.find? (fun p => p.1 = s) with
  | none => rw [hf] at h; cases h
  | some p =>
    rw [hf] at h
    have hpid : p.2 = id := Option.some.inj h
    obtain ⟨⟨i, hi⟩, hget⟩ := List.mem_iff_get.mp (List.mem_of_find?_eq_some hf)
    have := hW i p (by rw [List.get?_eq_get hi, hget])
    omega

theorem getTermId_entry {b : TSB} (hW : idsPositional b) {s : String} {id : Nat}
    (h : b.getTermId s = some id) : b.terms.get? id = some (s, id) := by
  rw [TSB.getTermId] at h
  cases hf : b.terms.find? (fun p => p.1 = s) with
  | none => rw [hf] at h; cases h
  | some p =>
    rw [hf] at h
    have hpid : p.2 = id := Option.some.inj h
    have hkey : p.1 = s := by simpa using List.find?_some hf
    obtain ⟨⟨i, hi⟩, hget⟩ := List.mem_iff_get.mp (List.mem_of_find?_eq_some hf)
    have hgq : b.terms.get? i = some p := by rw [List.get?_eq_get hi, hget]
    have hpi := hW i p hgq
    cases p with
    | mk ps pid =>
      simp only at hkey hpid hpi
      subst hkey
      subst hpid
      subst hpi
      exact hgq

theorem getTermId_inj {b : TSB} (hW : idsPositional b) {s t : String} {id : Nat}
    (hs : b.getTermId s = some id) (ht : b.getTermId t = some id) : s = t := by
  have h1 := getTermId_entry hW hs
  have h2 := getTermId_entry hW ht
  rw [h1] at h2
  exact (Prod.mk.inj (Option.some.inj h2)).1

theorem getOrAdd_terms_of_none {b : TSB} {s : String} (hx : b.getTermId s = none) :
    (b.getOrAdd s).1.terms = b.terms ++ [(s, b.terms.length)] := by
  rw [TSB.getOrAdd, hx]

theorem getOrAdd_id_of_none {b : TSB} {s : String} (hx : b.getTermId s = none) :
    (b.getOrAdd s).2 = b.terms.length := by
  rw [TSB.getOrAdd, hx]

theorem getOrAdd_of_some {b : TSB} {s : String} {id : Nat}
    (hx : b.getTermId s = some id) : b.getOrAdd s = (b, id) := by
  rw [TSB.getOrAdd, hx]

theorem getTermId_append {b : TSB} (ext : List (String × Nat)) (t : String) :
    (TSB.getTermId ⟨b.terms ++ ext, b.docFreq, b.termFreq⟩ t) =
      (((b.terms.find? (fun p => p.1 = t)).or (ext.find? (fun p => p.1 = t))).map
        Prod.snd) := by
  rw [TSB.getTermId, List.find?_append]

theorem getOrAdd_lookup_self {b : TSB} (s : String) :
    (b.getOrAdd s).1.getTermId s = some (b.getOrAdd s).2 := by
  cases hx : b.getTermId s with
  | some id =>
    rw [getOrAdd_of_some hx]
    exact hx
  | none =>
    have hid := getOrAdd_id_of_none hx
    have hf : b.terms.find? (fun p => p.1 = s) = none := by
      rw [TSB.getTermId, Option.map_eq_none'] at hx
      exact hx
    have hshape : (b.getOrAdd s).1 = ⟨b.terms ++ [(s, b.terms.length)], b.docFreq,
        b.termFreq⟩ := by
      rw [TSB.getOrAdd, hx]
    rw [hshape, getTermId_append, hf, hid]
    show (([(s, b.terms.length)].find? (fun p => p.1 = s)).map Prod.snd) =
      some b.terms.length
    simp [List.find?]

theorem getOrAdd_lookup_stable {b : TSB} (s : String) {t : String} {id : Nat}
    (h : b.getTermId t = some id) : (b.getOrAdd s).1.getTermId t = some id := by
  cases hx : b.getTermId s with
  | some i =>
    rw [getOrAdd_of_some hx]
    exact h
  | none =>
    have hshape : (b.getOrAdd s).1 = ⟨b.terms ++ [(s, b.terms.length)], b.docFreq,
        b.termFreq⟩ := by
      rw [TSB.getOrAdd, hx]
    rw [TSB.getTermId] at h
    cases hf : b.terms.find? (fun p => p.1 = t) with
    | none => rw [hf] at h; cases h
    | some p =>
      rw [hf] at h
      rw [hshape, getTermId_append, hf]
      exact h

theorem getOrAdd_lookup_none {b : TSB} (s : String) {t : String}
    (h : (b.getOrAdd s).1.getTermId t = none) :
    b.getTermId t = none ∧ t ≠ s := by
  cases hx : b.getTermId s with
  | some i =>
    rw [getOrAdd_of_some hx] at h
    refine ⟨h, ?_⟩
    rintro rfl
    rw [hx] at h
    cases h
  | none =>
    have hshape : (b.getOrAdd s).1 = ⟨b.terms ++ [(s, b.terms.length)], b.docFreq,
        b.termFreq⟩ := by
      rw [TSB.getOrAdd, hx]
    rw [hshape, getTermId_append, Option.map_eq_none'] at h
    cases hf : b.terms.find? (fun p => p.1 = t) with
    | some p =>
      rw [hf] at h
      exact Option.noConfusion h
    | none =>
      rw [hf] at h
      have h2 : [(s, b.terms.length)].find? (fun p => p.1 = t) = none := h
      rw [List.find?_eq_none] at h2
      constructor
      · rw [TSB.getTermId, Option.map_eq_none', hf]
      · intro hts
        have := h2 (s, b.terms.length) (List.mem_cons_self _ _)
        simp [hts] at this

theorem getOrAdd_positional {b : TSB} (hW : idsPositional b) (s : String) :
    idsPositional (b.getOrAdd s).1 := by
  cases hx : b.getTermId s with
  | some i =>
    rw [getOrAdd_of_some hx]
    exact hW
  | none =>
    have hshape : (b.getOrAdd s).1.terms = b.terms ++ [(s, b.terms.length)] :=
      getOrAdd_terms_of_none hx
    intro i p hp
    rw [hshape] at hp
    by_cases hi : i < b.terms.length
    · rw [List.get?_append hi] at hp
      exact hW i p hp
    · have hibound : i < b.terms.length + 1 := by
        by_contra hge
        have hnone : (b.terms ++ [(s, b.terms.length)]).get? i = none :=
          List.get?_eq_none.mpr (by simp; omega)
        rw [hnone] at hp
        cases hp
      have hieq : i = b.terms.length := by omega
      subst hieq
      have hgq : (b.terms ++ [(s, b.terms.length)]).get? b.terms.length =
          some (s, b.terms.length) := by
        rw [List.get?_append_right (le_refl _)]
        simp
      rw [hgq] at hp
      cases hp
      rfl

theorem getOrAdd_docFreq {b : TSB} (s : String) :
    (b.getOrAdd s).1.docFreq = b.docFreq := by
  cases hx : b.getTermId s with
  | some i => rw [getOrAdd_of_some hx]
  | none => rw [TSB.getOrAdd, hx]

theorem getOrAdd_len {b : TSB} (s : String) :
    b.terms.length ≤ (b.getOrAdd s).1.terms.length := by
  cases hx : b.getTermId s with
  | some i =>
    rw [getOrAdd_of_some hx]
  | none =>
    rw [getOrAdd_terms_of_none hx]
    simp

theorem getOrAdd_lookup_back {b : TSB} (s : String) {t : String} {id : Nat}
    (h : (b.getOrAdd s).1.getTermId t = some id) :
    b.getTermId t = some id ∨ (b.getTermId t = none ∧ b.terms.length ≤ id) := by
  cases hx : b.getTermId s with
  | some i =>
    rw [getOrAdd_of_some hx] at h
    exact Or.inl h
  | none =>
    have hshape : (b.getOrAdd s).1 = ⟨b.terms ++ [(s, b.terms.length)], b.docFreq,
        b.termFreq⟩ := by
      rw [TSB.getOrAdd, hx]
    rw [hshape, getTermId_append] at h
    cases hf : b.terms.find? (fun p => p.1 = t) with
    | some p =>
      rw [hf] at h
      have h' : (some p).map Prod.snd = some id := h
      exact Or.inl (by rw [TSB.getTermId, hf]; exact h')
    | none =>
      rw [hf] at h
      have h'' : ([(s, b.terms.length)].find? (fun p => p.1 = t)).map Prod.snd =
          some id := h
      clear h
      cases hfs : ([(s, b.terms.length)].find? (fun p => p.1 = t)) with
      | none =>
        rw [hfs] at h''
        cases h''
      | some q =>
        rw [hfs] at h''
        have hq : q = (s, b.terms.length) := by
          have := List.mem_of_find?_eq_some hfs
          simpa using this
        subst hq
        have hid : b.terms.length = id := Option.some.inj h''
        refine Or.inr ⟨by rw [TSB.getTermId, Option.map_eq_none', hf], by omega⟩

theorem updateTermFreq_fields (b : TSB) (tid did : Nat) :
    (b.updateTermFreq tid did).terms = b.terms ∧
    (b.updateTermFreq tid did).docFreq = b.docFreq ∧
    (∀ t, (b.updateTermFreq tid did).getTermId t = b.getTermId t) :=
  ⟨rfl, rfl, fun _ => rfl⟩

/-- The loop body of `insert_new_vec`'s term pass. -/
def atlStep (docId : Nat) (acc : TSB × List Nat) (t : String) : TSB × List Nat :=
  let r := acc.1.getOrAdd t
  (r.1.updateTermFreq r.2 docId, acc.2 ++ [r.2])

theorem addTermsLoop_eq (b : TSB) (docId : Nat) (terms : List String) :
    addTermsLoop b docId terms = terms.foldl (atlStep docId) (b, []) := rfl

theorem atl_fold_spec (docId : Nat) :
    ∀ (doc : List String) (b : TSB) (acc : List Nat),
      (idsPositional b → idsPositional (doc.foldl (atlStep docId) (b, acc)).1) ∧
      (doc.foldl (atlStep docId) (b, acc)).1.docFreq = b.docFreq ∧
      b.terms.length ≤ (doc.foldl (atlStep docId) (b, acc)).1.terms.length ∧
      (∀ t id, b.getTermId t = some id →
        (doc.foldl (atlStep docId) (b, acc)).1.getTermId t = some id) ∧
      (∀ t, (doc.foldl (atlStep docId) (b, acc)).1.getTermId t = none →
        b.getTermId t = none ∧ t ∉ doc) ∧
      (∀ s id, (doc.foldl (atlStep docId) (b, acc)).1.getTermId s = some id →
        b.getTermId s = some id ∨ (b.getTermId s = none ∧ b.terms.length ≤ id)) ∧
      (∀ x, x ∈ (doc.foldl (atlStep docId) (b, acc)).2 ↔
        x ∈ acc ∨ ∃ t ∈ doc, (doc.foldl (atlStep docId) (b, acc)).1.getTermId t = some x) := by
  intro doc
  induction doc with
  | nil =>
    intro b acc
    refine ⟨fun h => h, rfl, le_rfl, fun t id h => h, fun t h => ⟨h, by simp⟩,
      fun s id h => Or.inl h, fun x => ?_⟩
    simp
  | cons t ts ih =>
    intro b acc
    have hfold : (t :: ts).foldl (atlStep docId) (b, acc) =
        ts.foldl (atlStep docId) (atlStep docId (b, acc) t) := rfl
    set q := b.getOrAdd t with hq
    have hstep : atlStep docId (b, acc) t = (q.1.updateTermFreq q.2 docId, acc ++ [q.2]) :=
      rfl
    obtain ⟨u1, u2, u3⟩ := updateTermFreq_fields q.1 q.2 docId
    set b1 := q.1.updateTermFreq q.2 docId with hb1
    obtain ⟨p1, p2, p3, p4, p5, p6, p7⟩ := ih b1 (acc ++ [q.2])
    rw [hfold, hstep]
    -- transfer facts from b to b1
    have t_pos : idsPositional b → idsPositional b1 := by
      intro h
      intro i p hp
      rw [u1] at hp
      exact getOrAdd_positional h t i p hp
    have t_freq : b1.docFreq = b.docFreq := by rw [u2, getOrAdd_docFreq]
    have t_len : b.terms.length ≤ b1.terms.length := by rw [u1]; exact getOrAdd_len t
    have t_stab : ∀ u id, b.getTermId u = some id → b1.getTermId u = some id := by
      intro u id h
      rw [u3]
      exact getOrAdd_lookup_stable t h
    have t_none : ∀ u, b1.getTermId u = none → b.getTermId u = none ∧ u ≠ t := by
      intro u h
      rw [u3] at h
      exact getOrAdd_lookup_none t h
    have t_back : ∀ u id, b1.getTermId u = some id →
        b.getTermId u = some id ∨ (b.getTermId u = none ∧ b.terms.length ≤ id) := by
      intro u id h
      rw [u3] at h
      exact getOrAdd_lookup_back t h
    have t_self : b1.getTermId t = some q.2 := by
      rw [u3]
      exact getOrAdd_lookup_self t
    refine ⟨fun h => p1 (t_pos h), by rw [p2, t_freq], le_trans t_len p3, ?_, ?_, ?_, ?_⟩
    · intro u id h
      exact p4 u id (t_stab u id h)
    · intro u h
      obtain ⟨h1, h2⟩ := p5 u h
      obtain ⟨h3, h4⟩ := t_none u h1
      refine ⟨h3, ?_⟩
      intro hmem
      rcases List.mem_cons.mp hmem with rfl | hmem
      · exact h4 rfl
      · exact h2 hmem
    · intro u id h
      rcases p6 u id h with h1 | ⟨h1, h2⟩
      · rcases t_back u id h1 with h3 | ⟨h3, h4⟩
        · exact Or.inl h3
        · exact Or.inr ⟨h3, h4⟩
      · obtain ⟨h3, _⟩ := t_none u h1
        exact Or.inr ⟨h3, le_trans t_len h2⟩
    · intro x
      rw [p7 x]
      have hqs : (ts.foldl (atlStep docId) (b1, acc ++ [q.2])).1.getTermId t =
          some q.2 := p4 t q.2 t_self
      constructor
      · rintro (hx | ⟨u, hu, hid⟩)
        · rcases List.mem_append.mp hx with hx | hx
          · exact Or.inl hx
          · have : x = q.2 := by simpa using hx
            subst this
            exact Or.inr ⟨t, List.mem_cons_self t ts, hqs⟩
        · exact Or.inr ⟨u, List.mem_cons_of_mem _ hu, hid⟩
      · rintro (hx | ⟨u, hu, hid⟩)
        · exact Or.inl (List.mem_append_left _ hx)
        · rcases List.mem_cons.mp hu with rfl | hu
          · rw [hqs] at hid
            have : x = q.2 := (Option.some.inj hid).symm
            subst this
            exact Or.inl (List.mem_append_right _ (by simp))
          · exact Or.inr ⟨u, hu, hid⟩

theorem updateDocFreq_terms (b : TSB) (l : List Nat) :
    (b.updateDocFreq l).terms = b.terms ∧
    (∀ t, (b.updateDocFreq l).getTermId t = b.getTermId t) := by
  rw [TSB.updateDocFreq]
  induction l generalizing b with
  | nil => exact ⟨rfl, fun _ => rfl⟩
  | cons y ys ih =>
    rw [List.foldl_cons]
    exact ih _

theorem updateDocFreq_spec (b : TSB) (l : List Nat) (hnd : l.Nodup) (x : Nat) :
    (b.updateDocFreq l).docFreq x = b.docFreq x + (if x ∈ l then 1 else 0) := by
  rw [TSB.updateDocFreq]
  induction l generalizing b with
  | nil => simp
  | cons y ys ih =>
    rw [List.foldl_cons]
    rcases List.nodup_cons.mp hnd with ⟨hny, hnd'⟩
    rw [ih _ hnd']
    by_cases hxy : x = y
    · subst hxy
      simp [hny]
    · simp only [List.mem_cons]
      have : (if x = y then b.docFreq x + 1 else b.docFreq x) = b.docFreq x := by
        rw [if_neg hxy]
      show (if x = y then b.docFreq x + 1 else b.docFreq x) +
          (if x ∈ ys then 1 else 0) = b.docFreq x + (if x = y ∨ x ∈ ys then 1 else 0)
      rw [this]
      by_cases hxys : x ∈ ys
      · simp [hxys]
      · simp [hxys, hxy]

theorem distinctIds_spec (l : List Nat) :
    (distinctIds l).Nodup ∧ (∀ x, x ∈ distinctIds l ↔ x ∈ l) := by
  have main : ∀ (l acc : List Nat), acc.Nodup →
      (l.foldl (fun acc x => if x ∈ acc then acc else acc ++ [x]) acc).Nodup ∧
      (∀ x, x ∈ l.foldl (fun acc x => if x ∈ acc then acc else acc ++ [x]) acc ↔
        x ∈ acc ∨ x ∈ l) := by
    intro l
    induction l with
    | nil =>
      intro acc hacc
      exact ⟨hacc, fun x => by simp⟩
    | cons y ys ih =>
      intro acc hacc
      rw [List.foldl_cons]
      by_cases hy : y ∈ acc
      · rw [if_pos hy]
        obtain ⟨h1, h2⟩ := ih acc hacc
        refine ⟨h1, fun x => ?_⟩
        rw [h2 x]
        constructor
        · rintro (hx | hx)
          · exact Or.inl hx
          · exact Or.inr (List.mem_cons_of_mem _ hx)
        · rintro (hx | hx)
          · exact Or.inl hx
          · rcases List.mem_cons.mp hx with rfl | hx
            · exact Or.inl hy
            · exact Or.inr hx
      · rw [if_neg hy]
        have hacc' : (acc ++ [y]).Nodup := by
          rw [List.nodup_append]
          exact ⟨hacc, List.nodup_singleton y, by simpa using hy⟩
        obtain ⟨h1, h2⟩ := ih (acc ++ [y]) hacc'
        refine ⟨h1, fun x => ?_⟩
        rw [h2 x]
        constructor
        · rintro (hx | hx)
          · rcases List.mem_append.mp hx with hx | hx
            · exact Or.inl hx
            · exact Or.inr (by simpa using Or.inl (by simpa using hx))
          · exact Or.inr (List.mem_cons_of_mem _ hx)
        · rintro (hx | hx)
          · exact Or.inl (List.mem_append_left _ hx)
          · rcases List.mem_cons.mp hx with rfl | hx
            · exact Or.inl (List.mem_append_right _ (by simp))
            · exact Or.inr hx
  obtain ⟨h1, h2⟩ := main l [] (List.nodup_nil)
  exact ⟨h1, fun x => by rw [distinctIds, h2 x]; simp⟩

/-- The builder invariant carried over the processed corpus: positional
ids, document frequencies counting exactly the processed documents that
contain each stored term, unseen terms absent from every processed
document, and unassigned ids at zero. -/
def builderInv (docs : List (List String)) (b : TSB) : Prop :=
  idsPositional b ∧
  (∀ s id, b.getTermId s = some id →
    b.docFreq id = docs.countP (fun d => decide (s ∈ d))) ∧
  (∀ s, b.getTermId s = none → ∀ d ∈ docs, s ∉ d) ∧
  (∀ id, b.terms.length ≤ id → b.docFreq id = 0)

theorem insertNewVec_tsb (ib : IB) (doc : List String) :
    (ib.insertNewVec doc).tsb =
      (addTermsLoop ib.tsb ib.nVecs doc).1.updateDocFreq
        (distinctIds (addTermsLoop ib.tsb ib.nVecs doc).2) := rfl

theorem builderInv_step {docs : List (List String)} {ib : IB}
    (h : builderInv docs ib.tsb) (doc : List String) :
    builderInv (docs ++ [doc]) (ib.insertNewVec doc).tsb := by
  obtain ⟨hW, hI2, hI3, hI4⟩ := h
  rw [insertNewVec_tsb, addTermsLoop_eq]
  obtain ⟨p1, p2, p3, p4, p5, p6, p7⟩ := atl_fold_spec ib.nVecs doc ib.tsb []
  set B := (doc.foldl (atlStep ib.nVecs) (ib.tsb, [])).1 with hB
  set ids := (doc.foldl (atlStep ib.nVecs) (ib.tsb, [])).2 with hids
  have hWB : idsPositional B := p1 hW
  obtain ⟨hDnd, hDmem⟩ := distinctIds_spec ids
  obtain ⟨hut, hul⟩ := updateDocFreq_terms B (distinctIds ids)
  have hfreq : ∀ x, (B.updateDocFreq (distinctIds ids)).docFreq x =
      ib.tsb.docFreq x + (if x ∈ distinctIds ids then 1 else 0) := by
    intro x
    rw [updateDocFreq_spec B _ hDnd x, p2]
  have hmem_ids : ∀ x, x ∈ ids ↔ ∃ t ∈ doc, B.getTermId t = some x := by
    intro x
    rw [p7 x]
    simp
  refine ⟨?_, ?_, ?_, ?_⟩
  · intro i p hp
    rw [hut] at hp
    exact hWB i p hp
  · intro s id hlook
    rw [hul s] at hlook
    have hcount : (if id ∈ distinctIds ids then 1 else 0) =
        (if s ∈ doc then 1 else 0) := by
      have : id ∈ distinctIds ids ↔ s ∈ doc := by
        rw [hDmem id, hmem_ids id]
        constructor
        · rintro ⟨t, ht, hid⟩
          have : t = s := getTermId_inj hWB hid hlook
          subst this
          exact ht
        · intro hs
          exact ⟨s, hs, hlook⟩
      by_cases hmem : id ∈ distinctIds ids
      · rw [if_pos hmem, if_pos (this.mp hmem)]
      · rw [if_neg hmem, if_neg (fun hs => hmem (this.mpr hs))]
    rw [hfreq id, hcount]
    have hsplit : (docs ++ [doc]).countP (fun d => decide (s ∈ d)) =
        docs.countP (fun d => decide (s ∈ d)) + (if s ∈ doc then 1 else 0) := by
      rw [List.countP_append]
      simp [List.countP_cons]
    rw [hsplit]
    congr 1
    rcases p6 s id hlook with hold | ⟨hnone, hge⟩
    · exact hI2 s id hold
    · rw [hI4 id hge]
      have : docs.countP (fun d => decide (s ∈ d)) = 0 := by
        rw [List.countP_eq_zero]
        intro d hd
        simpa using hI3 s hnone d hd
      omega
  · intro s hlook d hd
    rw [hul s] at hlook
    obtain ⟨hnone, hnd⟩ := p5 s hlook
    rcases List.mem_append.mp hd with hd | hd
    · exact hI3 s hnone d hd
    · have : d = doc := by simpa using hd
      subst this
      exact hnd
  · intro id hge
    rw [hut] at hge
    have hnotin : id ∉ distinctIds ids := by
      rw [hDmem id, hmem_ids id]
      rintro ⟨t, _, hid⟩
      have := getTermId_lt hWB hid
      omega
    rw [hfreq id, if_neg hnotin]
    have : ib.tsb.terms.length ≤ id := le_trans p3 hge
    rw [hI4 id this]

theorem buildIB_inv (docs : List (List String)) : builderInv docs (buildIB docs).tsb := by
  have base : builderInv [] IB.empty.tsb := by
    refine ⟨?_, ?_, ?_, ?_⟩
    · intro i p hp
      cases hp
    · intro s id h
      cases h
    · intro s _ d hd
      cases hd
    · intro id _
      rfl
  have main : ∀ (rest pre : List (List String)) (ib : IB), builderInv pre ib.tsb →
      builderInv (pre ++ rest) (rest.foldl IB.insertNewVec ib).tsb := by
    intro rest
    induction rest with
    | nil =>
      intro pre ib h
      simpa using h
    | cons d ds ih =>
      intro pre ib h
      have h1 := builderInv_step h d
      have h2 := ih (pre ++ [d]) (ib.insertNewVec d) h1
      rw [List.foldl_cons]
      simpa [List.append_assoc] using h2
  have := main docs [] IB.empty base
  simpa using this

/-- **C9.** After any sequence of `insert_new_vec` calls, the recorded
document frequency of every stored term equals the number of inserted
documents whose term slice contains that term — each document counted
once even when the term occurs several times in it. -/
theorem C9_doc_frequency (docs : List (List String)) (s : String) (id : Nat)
    (h : (buildIB docs).tsb.getTermId s = some id) :
    (buildIB docs).tsb.docFreq id = docs.countP (fun d => decide (s ∈ d)) :=
  (buildIB_inv docs).2.1 s id h

/-- Closed witness for C9: the tiny-corpus scenario; term "a" (id 2) has
doc_frequency 3 and term "stand" (id 7) has doc_frequency 1. -/
theorem C9_witness :
    (buildIB [["to", "drive", "a", "car"], ["to", "have", "a", "call"],
        ["to", "make", "a", "stand", "a"]]).tsb.getTermId "a" = some 2 ∧
    (buildIB [["to", "drive", "a", "car"], ["to", "have", "a", "call"],
        ["to", "make", "a", "stand", "a"]]).tsb.docFreq 2 = 3 ∧
    (buildIB [["to", "drive", "a", "car"], ["to", "have", "a", "call"],
        ["to", "make", "a", "stand", "a"]]).tsb.getTermId "stand" = some 7 ∧
    (buildIB [["to", "drive", "a", "car"], ["to", "have", "a", "call"],
        ["to", "make", "a", "stand", "a"]]).tsb.docFreq 7 = 1 :=
  ⟨by decide,
   (C9_doc_frequency [["to", "drive", "a", "car"], ["to", "have", "a", "call"],
     ["to", "make", "a", "stand", "a"]] "a" 2 (by decide)).trans (by decide),
   by decide,
   (C9_doc_frequency [["to", "drive", "a", "car"], ["to", "have", "a", "call"],
     ["to", "make", "a", "stand", "a"]] "stand" 7 (by decide)).trans (by decide)⟩

/-!
## C1: `NewDimVecMap::build` / `InvertedIndex::get`

The fold of `build` is characterized by two layout functions: `layoutS`
(the payload cells appended for a run of entries) and `layoutF` (the
offset-table cells, absolute against a base offset).
-/

/-- Payload cells emitted for entries `es` when the previous dimension was
`ld`: per entry, the zero padding for the gap, then the sorted posting
prefixed by its length. -/
def layoutS : Nat → List (Nat × List Nat) → List Nat
  | _, [] => []
  | ld, (k, v) :: es =>
    List.replicate (k - ld - 1) 0 ++ ((sortNat v).length :: sortNat v) ++ layoutS k es

/-- Offset-table cells emitted for entries `es`, absolute against base
offset `off` (the payload length already emitted). -/
def layoutF : Nat → Nat → List (Nat × List Nat) → List Nat
  | _, _, [] => []
  | off, ld, (k, v) :: es =>
    (List.range (k - ld - 1)).map (off + ·) ++ [off + (k - ld - 1)] ++
      layoutF (off + (k - ld - 1) + 1 + (sortNat v).length) k es

/-- The last dimension after processing `es`, with default `ld`. -/
def lastKeyD (ld : Nat) (es : List (Nat × List Nat)) : Nat :=
  (es.map Prod.fst).getLast?.getD ld

theorem lastKeyD_cons (ld k : Nat) (v : List Nat) (es : List (Nat × List Nat)) :
    lastKeyD ld ((k, v) :: es) = lastKeyD k es := by
  rw [lastKeyD, lastKeyD]
  cases es with
  | nil => rfl
  | cons e es' =>
    simp only [List.map_cons, List.getLast?_cons_cons]
    cases hgl : (e.1 :: List.map Prod.fst es').getLast? with
    | none => exact absurd hgl (by simp)
    | some z => rfl

theorem le_lastKeyD {es : List (Nat × List Nat)} {ld : Nat}
    (h : ∀ p ∈ es, ld ≤ p.1) (hs : es.Pairwise (fun p q => p.1 < q.1)) :
    ld ≤ lastKeyD ld es := by
  induction es generalizing ld with
  | nil => exact le_rfl
  | cons e es' ih =>
    rcases List.pairwise_cons.mp hs with ⟨he, hs'⟩
    have h1 : ld ≤ e.1 := h e (List.mem_cons_self e es')
    have h2 : e.1 ≤ lastKeyD e.1 es' :=
      ih (fun p hp => Nat.le_of_lt (he p hp)) hs'
    calc ld ≤ e.1 := h1
      _ ≤ lastKeyD e.1 es' := h2
      _ = lastKeyD ld ((e.1, e.2) :: es') := by rw [lastKeyD_cons]
      _ = lastKeyD ld (e :: es') := by rfl

theorem buildStep_shape (fidx store : List Nat) (ld k : Nat) (v : List Nat) :
    buildStep (fidx, store, some ld) (k, v) =
      (fidx ++ (List.range (k - ld - 1)).map (store.length + ·) ++
        [store.length + (k - ld - 1)],
       store ++ List.replicate (k - ld - 1) 0 ++ ((sortNat v).length :: sortNat v),
       some k) := by
  rw [buildStep]
  simp only [Option.getD_some]
  have h1 : k - (ld + 1) = k - ld - 1 := by omega
  have h2 : (store ++ List.replicate (k - ld - 1) 0).length =
      store.length + (k - ld - 1) := by simp
  rw [h1, h2]

theorem fold_build (es : List (Nat × List Nat)) :
    ∀ (fidx store : List Nat) (ld : Nat),
      es.Pairwise (fun p q => p.1 < q.1) → (∀ p ∈ es, ld < p.1) →
      es.foldl buildStep (fidx, store, some ld) =
        (fidx ++ layoutF store.length ld es, store ++ layoutS ld es,
         some (lastKeyD ld es)) := by
  induction es with
  | nil =>
    intro fidx store ld _ _
    simp [layoutF, layoutS, lastKeyD]
  | cons e es' ih =>
    intro fidx store ld hs hgt
    cases e with
    | mk k v =>
      rcases List.pairwise_cons.mp hs with ⟨hke, hs'⟩
      rw [List.foldl_cons, buildStep_shape,
        ih _ _ k hs' (fun p hp => hke p hp)]
      have hlen : (store ++ List.replicate (k - ld - 1) 0 ++
          ((sortNat v).length :: sortNat v)).length =
          store.length + (k - ld - 1) + 1 + (sortNat v).length := by
        simp [List.length_append, List.length_replicate]
        omega
      rw [hlen]
      refine congrArg₂ Prod.mk ?_ (congrArg₂ Prod.mk ?_ ?_)
      · rw [layoutF]
        simp [List.append_assoc]
      · rw [layoutS]
        simp [List.append_assoc]
      · rw [lastKeyD_cons]

theorem readCells_exact : ∀ (mid pre post : List Nat),
    readCells (pre ++ mid ++ post) pre.length mid.length = some mid := by
  intro mid
  induction mid with
  | nil =>
    intro pre post
    rfl
  | cons x xs ih =>
    intro pre post
    have hget : (pre ++ (x :: xs) ++ post).get? pre.length = some x := by
      rw [List.append_assoc, List.get?_append_right (le_refl pre.length)]
      simp
    have hih := ih (pre ++ [x]) post
    have hlen : (pre ++ [x]).length = pre.length + 1 := by simp
    rw [hlen] at hih
    have hre : (pre ++ [x]) ++ xs ++ post = pre ++ (x :: xs) ++ post := by simp
    rw [hre] at hih
    rw [List.length_cons, readCells, hget]
    simp only [Option.bind_eq_bind, Option.some_bind, hih]

theorem iiGet_some {ii : InvIndex} {d o n : Nat} {sv : List Nat}
    (h1 : ii.index.get? d = some o) (h2 : ii.data.get? o = some n) (h3 : n ≠ 0)
    (h4 : readCells ii.data (o + 1) n = some sv) : ii.get d = some sv := by
  rw [InvIndex.get, h1]
  simp only [Option.bind_eq_bind, Option.some_bind, h2, if_neg h3, h4]

theorem iiGet_pad {ii : InvIndex} {d o : Nat}
    (h1 : ii.index.get? d = some o) (h2 : ii.data.get? o = some 0) :
    ii.get d = none := by
  rw [InvIndex.get, h1]
  simp only [Option.bind_eq_bind, Option.some_bind]
  rw [h2]
  simp

theorem iiGet_oob {ii : InvIndex} {d : Nat} (h1 : ii.index.get? d = none) :
    ii.get d = none := by
  rw [InvIndex.get, h1]
  rfl

theorem insNat_ne_nil (x : Nat) (l : List Nat) : insNat x l ≠ [] := by
  cases l with
  | nil => simp [insNat]
  | cons y ys =>
    rw [insNat]
    by_cases h : y < x
    · simp [h]
    · simp [h]

theorem sortNat_ne_nil {v : List Nat} (h : v ≠ []) : sortNat v ≠ [] := by
  cases v with
  | nil => exact absurd rfl h
  | cons x xs =>
    rw [sortNat]
    exact insNat_ne_nil x (sortNat xs)

theorem mem_insEntry {x y : Nat × List Nat} {l : List (Nat × List Nat)} :
    y ∈ insEntry x l ↔ y = x ∨ y ∈ l := by
  induction l with
  | nil => simp [insEntry]
  | cons z zs ih =>
    by_cases h : z.1 < x.1
    · simp only [insEntry, if_pos h, List.mem_cons, ih]
      tauto
    · simp only [insEntry, if_neg h, List.mem_cons]

theorem sortEntries_perm (l : List (Nat × List Nat)) : (sortEntries l).Perm l := by
  induction l with
  | nil => exact List.Perm.refl _
  | cons x xs ih =>
    have hins : ∀ (m : List (Nat × List Nat)), (insEntry x m).Perm (x :: m) := by
      intro m
      induction m with
      | nil => exact List.Perm.refl _
      | cons z zs ihz =>
        by_cases h : z.1 < x.1
        · simp only [insEntry, if_pos h]
          exact (ihz.cons z).trans (List.Perm.swap x z zs)
        · simp only [insEntry, if_neg h]
          exact List.Perm.refl _
    exact (hins (sortEntries xs)).trans (ih.cons x)

theorem sorted_insEntry {x : Nat × List Nat} {l : List (Nat × List Nat)}
    (h : l.Pairwise (fun p q => p.1 ≤ q.1)) :
    (insEntry x l).Pairwise (fun p q => p.1 ≤ q.1) := by
  induction l with
  | nil => simp [insEntry]
  | cons z zs ih =>
    rcases List.pairwise_cons.mp h with ⟨hz, hzs⟩
    by_cases hlt : z.1 < x.1
    · simp only [insEntry, if_pos hlt]
      refine List.pairwise_cons.mpr ⟨?_, ih hzs⟩
      intro y hy
      rcases mem_insEntry.mp hy with rfl | hy
      · exact Nat.le_of_lt hlt
      · exact hz y hy
    · simp only [insEntry, if_neg hlt]
      refine List.pairwise_cons.mpr ⟨?_, h⟩
      intro y hy
      rcases List.mem_cons.mp hy with rfl | hy
      · exact Nat.le_of_not_lt hlt
      · exact le_trans (Nat.le_of_not_lt hlt) (hz y hy)

theorem sorted_sortEntries (l : List (Nat × List Nat)) :
    (sortEntries l).Pairwise (fun p q => p.1 ≤ q.1) := by
  induction l with
  | nil => exact List.Pairwise.nil
  | cons x xs ih => exact sorted_insEntry ih

theorem strict_sortEntries {l : List (Nat × List Nat)}
    (hnd : (l.map Prod.fst).Nodup) :
    (sortEntries l).Pairwise (fun p q => p.1 < q.1) := by
  have hperm : ((sortEntries l).map Prod.fst).Perm (l.map Prod.fst) :=
    (sortEntries_perm l).map Prod.fst
  have hnd' : ((sortEntries l).map Prod.fst).Nodup := hperm.nodup_iff.mpr hnd
  have hne : (sortEntries l).Pairwise (fun p q => p.1 ≠ q.1) :=
    List.pairwise_map.mp hnd'
  exact ((sorted_sortEntries l).and hne).imp (fun h => lt_of_le_of_ne h.1 h.2)

theorem get?_replicate {x n i : Nat} (h : i < n) :
    (List.replicate n x).get? i = some x := by
  rw [List.get?_eq_get (by simpa using h)]
  simp

/-- Core characterization of the built layout: reading dimension `d` through
the offset table `layoutF` and the payload `layoutS` (sitting after an
arbitrary already-emitted prefix `S₀`) yields the sorted posting for present
dimensions, a zero-length sentinel for absent dimensions up to the last
emitted one, and falls off the table above it. -/
theorem layout_get :
    ∀ (es : List (Nat × List Nat)) (S₀ : List Nat) (ld d : Nat),
      es.Pairwise (fun p q => p.1 < q.1) →
      (∀ p ∈ es, ld < p.1) →
      (∀ p ∈ es, p.2 ≠ []) →
      ld < d →
      ((∀ v, (d, v) ∈ es →
        ∃ o, (layoutF S₀.length ld es).get? (d - ld - 1) = some o ∧
          (S₀ ++ layoutS ld es).get? o = some (sortNat v).length ∧
          readCells (S₀ ++ layoutS ld es) (o + 1) (sortNat v).length =
            some (sortNat v)) ∧
      (d ∉ es.map Prod.fst →
        (d ≤ lastKeyD ld es →
          ∃ o, (layoutF S₀.length ld es).get? (d - ld - 1) = some o ∧
            (S₀ ++ layoutS ld es).get? o = some 0) ∧
        (lastKeyD ld es < d →
          (layoutF S₀.length ld es).get? (d - ld - 1) = none))) := by
  intro es
  induction es with
  | nil =>
    intro S₀ ld d _ _ _ hldd
    refine ⟨fun v hv => absurd hv (List.not_mem_nil _), fun _ => ⟨?_, ?_⟩⟩
    · intro hle
      exact absurd (lt_of_lt_of_le hldd hle) (by rw [lastKeyD]; simp)
    · intro _
      rw [layoutF]
      rfl
  | cons e es' ih =>
    intro S₀ ld d hs hgt hne hldd
    cases e with
    | mk k v =>
      rcases List.pairwise_cons.mp hs with ⟨hke, hs'⟩
      have hldk : ld < k := hgt (k, v) (List.mem_cons_self (k, v) es')
      have hvne : v ≠ [] := hne (k, v) (List.mem_cons_self (k, v) es')
      have hklast : k ≤ lastKeyD k es' :=
        le_lastKeyD (fun p hp => Nat.le_of_lt (hke p hp)) hs'
      rcases Nat.lt_trichotomy d k with hdk | rfl | hdk
      · -- d is strictly below the head dimension: a padding cell
        have hFidx : (layoutF S₀.length ld ((k, v) :: es')).get? (d - ld - 1) =
            some (S₀.length + (d - ld - 1)) := by
          rw [layoutF, List.get?_append (by simp; omega),
            List.get?_append (by simp; omega),
            List.get?_map, List.get?_range (by omega)]
          rfl
        have hScell : (S₀ ++ layoutS ld ((k, v) :: es')).get?
            (S₀.length + (d - ld - 1)) = some 0 := by
          rw [List.get?_append_right (Nat.le_add_right _ _)]
          have hi : S₀.length + (d - ld - 1) - S₀.length = d - ld - 1 := by omega
          rw [hi, layoutS, List.get?_append (by simp; omega),
            List.get?_append (by simp; omega)]
          exact get?_replicate (by omega)
        refine ⟨?_, fun _ => ⟨?_, ?_⟩⟩
        · intro v' hv'
          exfalso
          rcases List.mem_cons.mp hv' with heq | hmem
          · have : d = k := congrArg Prod.fst heq
            omega
          · exact absurd (hke (d, v') hmem) (by omega)
        · intro _
          exact ⟨S₀.length + (d - ld - 1), hFidx, hScell⟩
        · intro hlast
          exfalso
          rw [lastKeyD_cons] at hlast
          omega
      · -- d is the head dimension: the posting block
        have hFidx : (layoutF S₀.length ld ((d, v) :: es')).get? (d - ld - 1) =
            some (S₀.length + (d - ld - 1)) := by
          rw [layoutF, List.get?_append (by simp),
            List.get?_append_right (by simp)]
          simp
        have hScell : (S₀ ++ layoutS ld ((d, v) :: es')).get?
            (S₀.length + (d - ld - 1)) = some (sortNat v).length := by
          rw [List.get?_append_right (Nat.le_add_right _ _)]
          have hi : S₀.length + (d - ld - 1) - S₀.length = d - ld - 1 := by omega
          rw [hi, layoutS, List.get?_append (by simp),
            List.get?_append_right (by simp)]
          simp
        have hsplit : (S₀ ++ List.replicate (d - ld - 1) 0 ++
              [(sortNat v).length]) ++ sortNat v ++ layoutS d es' =
            S₀ ++ layoutS ld ((d, v) :: es') := by
          rw [layoutS]
          simp [List.append_assoc]
        have hRead : readCells (S₀ ++ layoutS ld ((d, v) :: es'))
            (S₀.length + (d - ld - 1) + 1) (sortNat v).length =
            some (sortNat v) := by
          have h := readCells_exact (sortNat v)
            (S₀ ++ List.replicate (d - ld - 1) 0 ++ [(sortNat v).length])
            (layoutS d es')
          rw [hsplit] at h
          have hlen : (S₀ ++ List.replicate (d - ld - 1) 0 ++
              [(sortNat v).length]).length = S₀.length + (d - ld - 1) + 1 := by
            simp
            omega
          rw [hlen] at h
          exact h
        refine ⟨?_, ?_⟩
        · intro v' hv'
          rcases List.mem_cons.mp hv' with heq | hmem
          · have hv2 : v' = v := congrArg Prod.snd heq
            subst hv2
            exact ⟨S₀.length + (d - ld - 1), hFidx, hScell, hRead⟩
          · exact absurd (hke (d, v') hmem) (by omega)
        · intro hnotin
          exfalso
          exact hnotin (by simp)
      · -- d lies past the head dimension: defer to the tail layout
        have hS₁len : (S₀ ++ List.replicate (k - ld - 1) 0 ++
            ((sortNat v).length :: sortNat v)).length =
            S₀.length + (k - ld - 1) + 1 + (sortNat v).length := by
          simp
          omega
        have hS : S₀ ++ layoutS ld ((k, v) :: es') =
            (S₀ ++ List.replicate (k - ld - 1) 0 ++
              ((sortNat v).length :: sortNat v)) ++ layoutS k es' := by
          rw [layoutS]
          simp [List.append_assoc]
        have hFeq : (layoutF S₀.length ld ((k, v) :: es')).get? (d - ld - 1) =
            (layoutF (S₀ ++ List.replicate (k - ld - 1) 0 ++
              ((sortNat v).length :: sortNat v)).length k es').get?
              (d - k - 1) := by
          rw [layoutF, List.get?_append_right (by simp; omega), hS₁len]
          have hlenA : ((List.range (k - ld - 1)).map (S₀.length + ·) ++
              [S₀.length + (k - ld - 1)]).length = k - ld - 1 + 1 := by simp
          rw [hlenA]
          congr 1
          omega
        have hIH := ih (S₀ ++ List.replicate (k - ld - 1) 0 ++
            ((sortNat v).length :: sortNat v)) k d hs'
          (fun p hp => hke p hp)
          (fun p hp => hne p (List.mem_cons_of_mem (k, v) hp)) hdk
        refine ⟨?_, ?_⟩
        · intro v' hv'
          rcases List.mem_cons.mp hv' with heq | hmem
          · have : d = k := congrArg Prod.fst heq
            omega
          · obtain ⟨o, h1, h2, h3⟩ := hIH.1 v' hmem
            refine ⟨o, ?_, ?_, ?_⟩
            · rw [hFeq]
              exact h1
            · rw [hS]
              exact h2
            · rw [hS]
              exact h3
        · intro hnotin
          have hnotin' : d ∉ es'.map Prod.fst := by
            intro hmem
            exact hnotin (by simp [hmem])
          refine ⟨?_, ?_⟩
          · intro hle
            rw [lastKeyD_cons] at hle
            obtain ⟨o, h1, h2⟩ := (hIH.2 hnotin').1 hle
            refine ⟨o, ?_, ?_⟩
            · rw [hFeq]
              exact h1
            · rw [hS]
              exact h2
          · intro hgt'
            rw [lastKeyD_cons] at hgt'
            rw [hFeq]
            exact (hIH.2 hnotin').2 hgt'

/-- C1 counterexample: the claim fails on maps that do not contain dimension
0 and on postings with duplicates. For the map {1 ↦ [7]} the built index
returns `none` for the present dimension 1 and returns the posting when
asked for the absent dimension 0 (the offset table starts at the first
present dimension, not at 0, so all lookups are shifted); and for
{0 ↦ [3,3]} the stored posting keeps the duplicate (the build sorts but
never deduplicates). -/
theorem C1_counterexample :
    (buildII [(1, [7])]).get 1 = none ∧
    (buildII [(1, [7])]).get 0 = some [7] ∧
    (buildII [(0, [3, 3])]).get 0 = some [3, 3] := by
  decide

/-- C1 (amended): for a finite map with distinct dimensions and non-empty
posting lists whose smallest present dimension is 0 (or which is empty),
`InvertedIndex::get` after `NewDimVecMap::build` returns the *sorted but
not deduplicated* posting for every present dimension and `none` for every
absent dimension. Without the dimension-0 condition the offset table is
shifted (see the counterexample), and duplicates are never removed. -/
theorem C1_amended (m : List (Nat × List Nat))
    (hkeys : (m.map Prod.fst).Nodup)
    (hne : ∀ p ∈ m, p.2 ≠ [])
    (h0 : m = [] ∨ 0 ∈ m.map Prod.fst) (d : Nat) :
    (∀ v, (d, v) ∈ m → (buildII m).get d = some (sortNat v)) ∧
    (d ∉ m.map Prod.fst → (buildII m).get d = none) := by
  have hperm := sortEntries_perm m
  have hstrict := strict_sortEntries hkeys
  cases hE : sortEntries m with
  | nil =>
    have hm : m = [] := by
      have h := sortEntries_perm m
      rw [hE] at h
      exact h.symm.eq_nil
    subst hm
    exact ⟨fun v hv => absurd hv (List.not_mem_nil _),
      fun _ => iiGet_oob (by cases d <;> rfl)⟩
  | cons e0 es =>
    cases e0 with
    | mk k0 v0 =>
      have hmne : m ≠ [] := by
        intro hm
        subst hm
        simp [sortEntries] at hE
      have h0' : 0 ∈ m.map Prod.fst := h0.resolve_left hmne
      have h0E : 0 ∈ (sortEntries m).map Prod.fst :=
        ((hperm.map Prod.fst).mem_iff).mpr h0'
      rw [hE] at h0E
      have hstrictE := hstrict
      rw [hE] at hstrictE
      rcases List.pairwise_cons.mp hstrictE with ⟨hk0, hses⟩
      have hk00 : k0 = 0 := by
        rw [List.map_cons] at h0E
        rcases List.mem_cons.mp h0E with h | h
        · exact h.symm
        · exfalso
          rcases List.mem_map.mp h with ⟨p, hp, hp0⟩
          have := hk0 p hp
          omega
      subst hk00
      have hmemE : ∀ p : Nat × List Nat, p ∈ m ↔ p ∈ (0, v0) :: es := by
        intro p
        rw [← hE]
        exact hperm.mem_iff.symm
      have hkeysE : ∀ x : Nat,
          x ∈ m.map Prod.fst ↔ x ∈ ((0, v0) :: es).map Prod.fst := by
        intro x
        rw [← hE]
        exact ((hperm.map Prod.fst).mem_iff).symm
      have hfirst : buildStep ([], [], none) (0, v0) =
          ([0], (sortNat v0).length :: sortNat v0, some 0) := rfl
      have hfold : (sortEntries m).foldl buildStep ([], [], none) =
          ([0] ++ layoutF ((sortNat v0).length :: sortNat v0).length 0 es,
           ((sortNat v0).length :: sortNat v0) ++ layoutS 0 es,
           some (lastKeyD 0 es)) := by
        rw [hE, List.foldl_cons, hfirst]
        exact fold_build es [0] ((sortNat v0).length :: sortNat v0) 0 hses
          (fun p hp => hk0 p hp)
      have hII : buildII m =
          ⟨[0] ++ layoutF ((sortNat v0).length :: sortNat v0).length 0 es,
           ((sortNat v0).length :: sortNat v0) ++ layoutS 0 es⟩ := by
        show (⟨((sortEntries m).foldl buildStep ([], [], none)).1,
              ((sortEntries m).foldl buildStep ([], [], none)).2.1⟩ :
          InvIndex) = _
        rw [hfold]
      by_cases hd0 : d = 0
      · subst hd0
        have hIdx : (buildII m).index.get? 0 = some 0 := by
          rw [hII]
          rfl
        constructor
        · intro v hv
          have hvE : (0, v) ∈ (0, v0) :: es := (hmemE _).mp hv
          have hvv0 : v = v0 := by
            rcases List.mem_cons.mp hvE with heq | hmem
            · exact congrArg Prod.snd heq
            · exfalso
              have h2 := hk0 (0, v) hmem
              simp at h2
          subst hvv0
          have hn0 : (buildII m).data.get? 0 = some (sortNat v).length := by
            rw [hII]
            rfl
          have hne0 : (sortNat v).length ≠ 0 := by
            intro h
            exact sortNat_ne_nil (hne (0, v) hv) (List.length_eq_zero.mp h)
          have hR : readCells (buildII m).data 1 (sortNat v).length =
              some (sortNat v) := by
            rw [hII]
            have h := readCells_exact (sortNat v) [(sortNat v).length]
              (layoutS 0 es)
            simpa using h
          exact iiGet_some hIdx hn0 hne0 hR
        · intro hnot
          exact absurd ((hkeysE 0).mpr (by simp)) hnot
      · have hdpos : 0 < d := Nat.pos_of_ne_zero hd0
        have hIdxE : (buildII m).index.get? d =
            (layoutF ((sortNat v0).length :: sortNat v0).length 0 es).get?
              (d - 0 - 1) := by
          rw [hII]
          rw [List.get?_append_right (by simp; omega)]
          congr 1
        have hLG := layout_get es ((sortNat v0).length :: sortNat v0) 0 d hses
          (fun p hp => hk0 p hp)
          (fun p hp => hne p ((hmemE p).mpr (List.mem_cons_of_mem (0, v0) hp)))
          hdpos
        constructor
        · intro v hv
          have hvE : (d, v) ∈ (0, v0) :: es := (hmemE _).mp hv
          have hmem : (d, v) ∈ es := by
            rcases List.mem_cons.mp hvE with heq | hmem
            · exfalso
              have : d = 0 := congrArg Prod.fst heq
              omega
            · exact hmem
          obtain ⟨o, h1, h2, h3⟩ := hLG.1 v hmem
          have hIdx : (buildII m).index.get? d = some o := by
            rw [hIdxE]
            exact h1
          have hn : (buildII m).data.get? o = some (sortNat v).length := by
            rw [hII]
            exact h2
          have hnz : (sortNat v).length ≠ 0 := by
            intro h
            exact sortNat_ne_nil (hne (d, v) hv) (List.length_eq_zero.mp h)
          have hR : readCells (buildII m).data (o + 1) (sortNat v).length =
              some (sortNat v) := by
            rw [hII]
            exact h3
          exact iiGet_some hIdx hn hnz hR
        · intro hnot
          have hnotE : d ∉ ((0, v0) :: es).map Prod.fst :=
            fun h => hnot ((hkeysE d).mpr h)
          have hnotes : d ∉ es.map Prod.fst := fun h => hnotE (by simp [h])
          rcases Nat.lt_or_ge (lastKeyD 0 es) d with hgt | hle
          · refine iiGet_oob ?_
            rw [hIdxE]
            exact (hLG.2 hnotes).2 hgt
          · obtain ⟨o, h1, h2⟩ := (hLG.2 hnotes).1 hle
            have hIdx2 : (buildII m).index.get? d = some o := by
              rw [hIdxE]
              exact h1
            have hD2 : (buildII m).data.get? o = some 0 := by
              rw [hII]
              exact h2
            exact iiGet_pad hIdx2 hD2

/-- C1 witness: the amended theorem at the concrete map
{0 ↦ [5], 2 ↦ [9, 4]} — dimension 2 is present and yields the sorted
posting [4, 9], the absent dimension 1 yields `none`. -/
theorem C1_witness :
    ((([(0, [5]), (2, [9, 4])] : List (Nat × List Nat)).map Prod.fst).Nodup ∧
     (∀ p ∈ ([(0, [5]), (2, [9, 4])] : List (Nat × List Nat)), p.2 ≠ []) ∧
     (([(0, [5]), (2, [9, 4])] : List (Nat × List Nat)) = [] ∨
       0 ∈ ([(0, [5]), (2, [9, 4])] : List (Nat × List Nat)).map Prod.fst)) ∧
    (buildII [(0, [5]), (2, [9, 4])]).get 2 = some [4, 9] ∧
    (buildII [(0, [5]), (2, [9, 4])]).get 1 = none :=
  ⟨⟨by decide, by decide, by decide⟩,
   (C1_amended [(0, [5]), (2, [9, 4])] (by decide) (by decide) (by decide)
     2).1 [9, 4] (by decide),
   (C1_amended [(0, [5]), (2, [9, 4])] (by decide) (by decide) (by decide)
     1).2 (by decide)⟩
